import Mathlib

/-!
A shallow embedding of the `sparse_vec` Rust crate (`src/lib.rs`) and a
verification of its specified properties.

Modelling conventions:
* `u64` addresses are modelled as `Nat`; arithmetic that can wrap in a release
  build (`sub_range`) is modelled with an explicit wrap modulo `2 ^ 64`
  (`wrap_sub`).  Address arithmetic that the crate's contract forbids from
  overflowing (`addr + data.len()`) appears as a `< 2 ^ 64` hypothesis.
* `rangemap::RangeMap<u64, usize>` is modelled as a sorted list of
  `(range, key)` entries (`RMap`); its `insert` clips away every overlapping
  portion of existing entries and coalesces the inserted range with adjacent
  entries holding an equal value, exactly as the crate documents.
* `HashMap<usize, (Range<u64>, Vec<T>)>` is modelled as a function
  `Nat → Option (Rng × List T)` (`Store`); `Vec<T>` as `List T`.
* Places where the Rust code would panic on an impossible state
  (`unwrap` / indexing a missing key) are modelled by returning the input
  unchanged / `none`; all of them are proved unreachable from well-formed
  states.
* The `Merge` loop of `insert` terminates because every iteration removes one
  entry from the range map; it is modelled with fuel `map.length`, which the
  well-formedness proof shows is sufficient.
-/

namespace SparseSpec

/-- The size of the `u64` address space. -/
def U64 : Nat := 2 ^ 64

/-- A half-open interval `start .. stop` of addresses (`Range<u64>`;
`stop` is Rust's `end`, which is a keyword in Lean). -/
structure Rng where
  start : Nat
  stop : Nat
deriving DecidableEq, Repr

/-- Membership of an address in a half-open range. -/
def Rng.contains (r : Rng) (x : Nat) : Prop := r.start ≤ x ∧ x < r.stop

instance (r : Rng) (x : Nat) : Decidable (r.contains x) := by
  unfold Rng.contains; infer_instance

/-- `Range::is_empty` for `Range<u64>`: `start >= end`. -/
def Rng.is_empty (r : Rng) : Bool := decide (r.stop ≤ r.start)

/-- Wrapping `u64` subtraction `a - b` (release-build semantics); correct for
`b < 2 ^ 64`. -/
def wrap_sub (a b : Nat) : Nat := (a + U64 - b) % U64

/-- `fn sub_range(range, offset) -> Range<u64>` from the source, with the
`u64` subtractions wrapping as in a release build. -/
def sub_range (range : Rng) (offset : Nat) : Rng :=
  ⟨wrap_sub range.start offset, wrap_sub range.stop offset⟩

/-- `fn cast_range` converts `Range<u64>` to `Range<usize>`; on a 64-bit
target the conversion is the identity. -/
def cast_range (r : Rng) : Rng := r

/-- `Vec` / slice range indexing `vec[r.start..r.stop]` (in-bounds at every
call site reached from a well-formed state). -/
def slice_index {T : Type} (vec : List T) (r : Rng) : List T :=
  (vec.drop r.start).take (r.stop - r.start)

/-- Slice `get(Range)`: `Some` exactly when `start ≤ stop ≤ len`. -/
def slice_get {T : Type} (vec : List T) (r : Rng) : Option (List T) :=
  if r.start ≤ r.stop ∧ r.stop ≤ vec.length then some (slice_index vec r) else none

/-- A storage key (`usize`). -/
abbrev Key := Nat

/-- The model of `rangemap::RangeMap<u64, usize>`: entries sorted by range
start, ranges nonempty and disjoint. -/
abbrev RMap := List (Rng × Key)

/-- Remove from one entry the part overlapping `r`; at most two pieces
survive (the parts strictly left and strictly right of `r`). -/
def clipEntry (r : Rng) (e : Rng × Key) : List (Rng × Key) :=
  (if e.1.start < r.start then [(⟨e.1.start, min e.1.stop r.start⟩, e.2)] else []) ++
  (if r.stop < e.1.stop then [(⟨max e.1.start r.stop, e.1.stop⟩, e.2)] else [])

/-- `RangeMap::remove`: delete the overlap with `r` from every entry. -/
def RMap.remove (m : RMap) (r : Rng) : RMap := m.flatMap (clipEntry r)

/-- Insert an entry into a start-sorted entry list, keeping it sorted. -/
def insertSorted (e : Rng × Key) : RMap → RMap
  | [] => [e]
  | x :: xs => if e.1.start ≤ x.1.start then e :: x :: xs else x :: insertSorted e xs

/-- Coalesce adjacent entries carrying an equal value, as `RangeMap` does. -/
def glue : RMap → RMap
  | e1 :: e2 :: rest =>
    if e1.1.stop = e2.1.start ∧ e1.2 = e2.2 then
      glue ((⟨⟨e1.1.start, e2.1.stop⟩, e1.2⟩ : Rng × Key) :: rest)
    else e1 :: glue (e2 :: rest)
  | l => l
termination_by m => m.length

/-- `RangeMap::insert`: clip overlapping entries, insert the new entry in
order, then coalesce adjacent equal-valued entries. -/
def RMap.insert (m : RMap) (r : Rng) (v : Key) : RMap :=
  glue (insertSorted (r, v) (RMap.remove m r))

/-- `RangeMap::get_key_value`: the entry whose range contains the point. -/
def RMap.get_key_value (m : RMap) (x : Nat) : Option (Rng × Key) :=
  m.find? (fun e => decide (e.1.contains x))

/-- `RangeMap::get`: the value whose range contains the point. -/
def RMap.get (m : RMap) (x : Nat) : Option Key :=
  (RMap.get_key_value m x).map (fun e => e.2)

/-- `RangeMap::overlaps`: does any stored range intersect the query range? -/
def RMap.overlapsB (m : RMap) (r : Rng) : Bool :=
  m.any (fun e => decide (max e.1.start r.start < min e.1.stop r.stop))

/-- The model of `HashMap<usize, (Range<u64>, Vec<T>)>`. -/
def Store (T : Type) := Key → Option (Rng × List T)

/-- `HashMap::insert`. -/
def Store.insert {T : Type} (d : Store T) (k : Key) (v : Rng × List T) : Store T :=
  fun k' => if k' = k then some v else d k'

/-- `HashMap::remove` (the removed value is read separately). -/
def Store.remove {T : Type} (d : Store T) (k : Key) : Store T :=
  fun k' => if k' = k then none else d k'

/-- `struct SparseVec<T>`. -/
structure SparseVec (T : Type) where
  map : RMap
  data : Store T
  key_counter : Key

/-- `SparseVec::default()`: empty map, empty store, counter 0. -/
def SparseVec.default (T : Type) : SparseVec T := ⟨[], fun _ => none, 0⟩

/-- `SparseVec::resize_block`: shrink the block under `key` so that its
buffer and recorded range match `range` (`copy_within` + `truncate`). -/
def SparseVec.resize_block {T : Type} (data : Store T) (key : Key) (range : Rng) :
    Store T :=
  match data key with
  | some (old_range, vec) =>
    let new_vec_range := cast_range (sub_range range old_range.start)
    Store.insert data key (range, slice_index vec new_vec_range)
  | none => data

/-- `SparseVec::collect_garbage`: drop every store entry whose key no longer
occurs in the range map. -/
def SparseVec.collect_garbage {T : Type} (s : SparseVec T) : SparseVec T :=
  { s with data := fun k => if s.map.any (fun e => e.2 == k) then s.data k else none }

/-- `SparseVec::get`. -/
def SparseVec.get {T : Type} (s : SparseVec T) (range : Rng) : Option (List T) :=
  match RMap.get_key_value s.map range.start with
  | none => none
  | some (found_range, key) =>
    let slice_range := sub_range range found_range.start
    match s.data key with
    | some e => slice_get e.2 (cast_range slice_range)
    | none => none

/-- `SparseVec::get_mut`, modelled by the location of the returned mutable
view: the block key together with the element index range inside that
block's buffer (`Some` under exactly the same conditions as in Rust). -/
def SparseVec.get_mut {T : Type} (s : SparseVec T) (range : Rng) : Option (Key × Rng) :=
  match RMap.get_key_value s.map range.start with
  | none => none
  | some (found_range, key) =>
    let slice_range := cast_range (sub_range range found_range.start)
    match s.data key with
    | some e =>
      if slice_range.start ≤ slice_range.stop ∧ slice_range.stop ≤ e.2.length then
        some (key, slice_range)
      else none
    | none => none

/-- `SparseVec::overlaps`. -/
def SparseVec.overlaps {T : Type} (s : SparseVec T) (range : Rng) : Bool :=
  RMap.overlapsB s.map range

/-- `SparseVec::ranges`: the ascending list of stored ranges. -/
def SparseVec.ranges {T : Type} (s : SparseVec T) : List Rng :=
  s.map.map (fun e => e.1)

/-- `SparseVec::stored_len`: total element count over all blocks reachable
from the range map. -/
def SparseVec.stored_len {T : Type} (s : SparseVec T) : Nat :=
  (s.map.map (fun e => ((s.data e.2).map (fun v => v.2.length)).getD 0)).sum

/-- Phase 0 of `insert`: if the block covering `insert_range.start` also
covers the point `insert_range.end`, pre-split it into its parts below and
above `insert_range`. -/
def SparseVec.phase0 {T : Type} (s : SparseVec T) (insert_range : Rng) : SparseVec T :=
  match RMap.get s.map insert_range.start with
  | none => s
  | some key =>
    if RMap.get s.map insert_range.stop = some key then
      match s.data key with
      | none => s
      | some (range, vec) =>
        let lower_range : Rng := ⟨range.start, insert_range.start⟩
        let upper_range : Rng := ⟨insert_range.stop, range.stop⟩
        let s1 :=
          if upper_range.is_empty then s
          else
            let copy_range := cast_range (sub_range upper_range range.start)
            { map := RMap.insert s.map upper_range s.key_counter,
              data := Store.insert s.data s.key_counter
                        (upper_range, slice_index vec copy_range),
              key_counter := s.key_counter + 1 }
        if lower_range.is_empty then s1
        else
          { s1 with
            data := SparseVec.resize_block s1.data key lower_range,
            map := RMap.insert s1.map lower_range key }
    else s

/-- Phase 1 of `insert`: allocate a fresh key and insert the new range and
block verbatim. -/
def SparseVec.raw_insert {T : Type} (s : SparseVec T) (insert_range : Rng)
    (data : List T) : SparseVec T :=
  { map := RMap.insert s.map insert_range s.key_counter,
    data := Store.insert s.data s.key_counter (insert_range, data),
    key_counter := s.key_counter + 1 }

/-- Resize the block of each map entry to match the (possibly clipped) range
recorded in the map, in map order. -/
def resizeAll {T : Type} (m : RMap) (d : Store T) : Store T :=
  m.foldl (fun acc e => SparseVec.resize_block acc e.2 e.1) d

/-- Phase 2 of `insert`: the resize loop over all map entries. -/
def SparseVec.resize_phase {T : Type} (s : SparseVec T) : SparseVec T :=
  { s with data := resizeAll s.map s.data }

/-- The first adjacent pair among consecutive stored ranges
(`tuple_windows` scan with `break`). -/
def findAdjacent : RMap → Option (Rng × Rng)
  | e1 :: e2 :: rest =>
    if e1.1.stop = e2.1.start then some (e1.1, e2.1)
    else findAdjacent (e2 :: rest)
  | _ => none

/-- One iteration of the merge loop: concatenate the second block onto the
first, extend the first's range, and drop the second from both structures. -/
def SparseVec.mergeStep {T : Type} (s : SparseVec T) (range range2 : Rng) :
    SparseVec T :=
  match RMap.get s.map range.start, RMap.get s.map range2.start with
  | some key1, some key2 =>
    match s.data key2 with
    | none => s
    | some (_, vec2) =>
      let data1 := Store.remove s.data key2
      let map1 := RMap.remove s.map range2
      match data1 key1 with
      | none => { s with data := data1, map := map1 }
      | some (_, vec1) =>
        let data_range : Rng := ⟨range.start, range2.stop⟩
        { map := RMap.insert map1 data_range key1,
          data := Store.insert data1 key1 (data_range, vec1 ++ vec2),
          key_counter := s.key_counter }
  | _, _ => s

/-- The merge loop, with fuel (each iteration removes one map entry, so
`map.length` fuel always reaches the loop's fixpoint). -/
def mergeFuel {T : Type} : Nat → SparseVec T → SparseVec T
  | 0, s => s
  | n + 1, s =>
    match findAdjacent s.map with
    | none => s
    | some (range, range2) => mergeFuel n (s.mergeStep range range2)

/-- Phase 3 of `insert`: merge adjacent blocks until none remain. -/
def SparseVec.merge_phase {T : Type} (s : SparseVec T) : SparseVec T :=
  mergeFuel s.map.length s

/-- `SparseVec::insert`. -/
def SparseVec.insert {T : Type} (s : SparseVec T) (data : List T) (addr : Nat) :
    SparseVec T :=
  if data.isEmpty then s
  else
    let insert_range : Rng := ⟨addr, addr + data.length⟩
    (((s.phase0 insert_range).raw_insert insert_range data).resize_phase.merge_phase).collect_garbage

/-! ## Specification vocabulary -/

/-- Some stored range covers address `x`. -/
def cover (m : RMap) (x : Nat) : Prop := ∃ e ∈ m, e.1.contains x

/-- The element value observable at address `x`: the byte of the covering
block's buffer corresponding to `x` (indexed from the buffer's recorded
range, which equals the map range in lockstep states). -/
def valueAt {T : Type} (m : RMap) (d : Store T) (x : Nat) : Option T :=
  match RMap.get_key_value m x with
  | some e =>
    match d e.2 with
    | some (rg0, buf) => buf[x - rg0.start]?
    | none => none
  | none => none

/-- Entries are sorted and disjoint (adjacency allowed). -/
def Sorted (m : RMap) : Prop := m.Pairwise (fun e1 e2 => e1.1.stop ≤ e2.1.start)

/-- Entries are sorted, disjoint and non-adjacent. -/
def SortedSep (m : RMap) : Prop := m.Pairwise (fun e1 e2 => e1.1.stop < e2.1.start)

/-- A stored range is nonempty and lies inside the `u64` address space. -/
def EntryOK (e : Rng × Key) : Prop := e.1.start < e.1.stop ∧ e.1.stop < U64

/-- No key appears under two map entries. -/
def KeysOK (m : RMap) : Prop := m.Pairwise (fun e1 e2 => e1.2 ≠ e2.2)

/-- The range-map half of the structural invariants. -/
def MapOK (m : RMap) : Prop := Sorted m ∧ (∀ e ∈ m, EntryOK e) ∧ KeysOK m

/-- Every map entry has a store entry with the same range and a buffer of
matching length (the checks of `assert_invariants`, first loop). -/
def LockstepEq {T : Type} (m : RMap) (d : Store T) : Prop :=
  ∀ e ∈ m, ∃ buf, d e.2 = some (e.1, buf) ∧ buf.length = e.1.stop - e.1.start

/-- Mid-insert invariant: each map entry's key owns a block whose recorded
range contains the entry's (possibly clipped) range, and whose buffer holds
the value `target x` at the position corresponding to each address `x` of
the entry's range. -/
def Align {T : Type} (m : RMap) (d : Store T) (target : Nat → Option T) : Prop :=
  ∀ e ∈ m, ∃ rg0 buf, d e.2 = some (rg0, buf) ∧
    buf.length = rg0.stop - rg0.start ∧
    rg0.start ≤ e.1.start ∧ e.1.stop ≤ rg0.stop ∧
    ∀ x, e.1.contains x → buf[x - rg0.start]? = target x

/-- Weaker mid-insert invariant holding between phase 0 and phase 1: the
containment and value conditions are only required at addresses outside
`avoid` (the range about to be overwritten by the raw insert). -/
def AlignPt {T : Type} (m : RMap) (d : Store T) (avoid : Rng) (target : Nat → Option T) :
    Prop :=
  ∀ e ∈ m, ∃ rg0 buf, d e.2 = some (rg0, buf) ∧
    buf.length = rg0.stop - rg0.start ∧
    ∀ x, e.1.contains x → ¬ avoid.contains x →
      rg0.contains x ∧ buf[x - rg0.start]? = target x

/-- Some range of a plain range list covers `x` (used to state the
canonical-decomposition lemma over `ranges()`). -/
def coverR (L : List Rng) (x : Nat) : Prop := ∃ r ∈ L, r.contains x

/-- Lockstep with correct values: `Align` with recorded range equal to the
map range. -/
def LockstepVal {T : Type} (m : RMap) (d : Store T) (target : Nat → Option T) : Prop :=
  ∀ e ∈ m, ∃ buf, d e.2 = some (e.1, buf) ∧
    buf.length = e.1.stop - e.1.start ∧
    ∀ x, e.1.contains x → buf[x - e.1.start]? = target x

/-- Full well-formedness of a `SparseVec` between `insert` calls: the map is
sorted, disjoint, non-adjacent, with in-bounds nonempty ranges and distinct
keys; map and store are in lockstep; the store has no orphaned keys; and
`key_counter` dominates every used key. -/
def SparseVec.WF {T : Type} (s : SparseVec T) : Prop :=
  SortedSep s.map ∧ (∀ e ∈ s.map, EntryOK e) ∧ KeysOK s.map ∧
  LockstepEq s.map s.data ∧
  (∀ k, (s.data k).isSome → ∃ e ∈ s.map, e.2 = k) ∧
  (∀ e ∈ s.map, e.2 < s.key_counter)

/-- States reachable from `SparseVec::default()` by `insert` calls whose
address arithmetic does not overflow `u64` (the crate's unchecked
precondition). -/
inductive SparseVec.Reachable {T : Type} : SparseVec T → Prop
  | base : SparseVec.Reachable (SparseVec.default T)
  | step (s : SparseVec T) (d : List T) (a : Nat) :
      SparseVec.Reachable s → (d = [] ∨ a + d.length < U64) →
      SparseVec.Reachable (s.insert d a)

/-! ## Arithmetic helpers -/

theorem U64_eq : U64 = 18446744073709551616 := by norm_num [U64]

theorem U64_pos : 0 < U64 := by rw [U64_eq]; omega

theorem wrap_sub_of_le {a b : Nat} (hba : b ≤ a) (ha : a < U64) :
    wrap_sub a b = a - b := by
  unfold wrap_sub
  rw [U64_eq] at *
  omega

theorem sub_range_of_le {r : Rng} {off : Nat} (h1 : off ≤ r.start)
    (h2 : r.start ≤ r.stop) (h3 : r.stop < U64) :
    sub_range r off = ⟨r.start - off, r.stop - off⟩ := by
  unfold sub_range
  rw [wrap_sub_of_le (le_trans h1 h2) h3, wrap_sub_of_le h1 (lt_of_le_of_lt h2 h3)]

/-! ## Interval and `clipEntry` lemmas -/

theorem mem_clipEntry_key {r : Rng} {e e' : Rng × Key} (h : e' ∈ clipEntry r e) :
    e'.2 = e.2 := by
  unfold clipEntry at h
  by_cases h1 : e.1.start < r.start <;> by_cases h2 : r.stop < e.1.stop <;>
    simp [h1, h2] at h
  · rcases h with h | h <;> simp [h]
  · simp [h]
  · simp [h]

theorem mem_clipEntry_char {r : Rng} {e e' : Rng × Key}
    (he : e.1.start < e.1.stop) (h : e' ∈ clipEntry r e) :
    e'.2 = e.2 ∧ e.1.start ≤ e'.1.start ∧ e'.1.stop ≤ e.1.stop ∧
    e'.1.start < e'.1.stop ∧ (e'.1.stop ≤ r.start ∨ r.stop ≤ e'.1.start) := by
  unfold clipEntry at h
  by_cases h1 : e.1.start < r.start <;> by_cases h2 : r.stop < e.1.stop <;>
    simp [h1, h2] at h
  · rcases h with h | h <;> (rw [h]; simp; omega)
  · rw [h]; simp; omega
  · rw [h]; simp; omega

theorem cover_clipEntry {r : Rng} {e : Rng × Key} {x : Nat}
    (he : e.1.start < e.1.stop) (hr : r.start < r.stop) :
    (∃ e' ∈ clipEntry r e, e'.1.contains x) ↔
      (e.1.contains x ∧ ¬ r.contains x) := by
  unfold clipEntry Rng.contains
  by_cases h1 : e.1.start < r.start <;> by_cases h2 : r.stop < e.1.stop <;>
    simp [h1, h2, Rng.contains] <;> omega

theorem clipEntry_split_iff {r : Rng} {e : Rng × Key} :
    1 < (clipEntry r e).length ↔ (e.1.start < r.start ∧ r.stop < e.1.stop) := by
  unfold clipEntry
  by_cases h1 : e.1.start < r.start <;> by_cases h2 : r.stop < e.1.stop <;>
    simp [h1, h2]

/-! ## `RMap.remove` lemmas -/

theorem mem_remove {m : RMap} {r : Rng} {e' : Rng × Key} :
    e' ∈ RMap.remove m r ↔ ∃ e ∈ m, e' ∈ clipEntry r e := by
  simp [RMap.remove, List.mem_flatMap]

theorem cover_remove {m : RMap} {r : Rng} {x : Nat}
    (hne : ∀ e ∈ m, e.1.start < e.1.stop) (hr : r.start < r.stop) :
    cover (RMap.remove m r) x ↔ cover m x ∧ ¬ r.contains x := by
  unfold cover
  constructor
  · rintro ⟨e', he', hx⟩
    rcases mem_remove.mp he' with ⟨e, he, hmem⟩
    have := (cover_clipEntry (hne e he) hr).mp ⟨e', hmem, hx⟩
    exact ⟨⟨e, he, this.1⟩, this.2⟩
  · rintro ⟨⟨e, he, hx⟩, hnr⟩
    rcases (cover_clipEntry (hne e he) hr).mpr ⟨hx, hnr⟩ with ⟨e', hmem, hx'⟩
    exact ⟨e', mem_remove.mpr ⟨e, he, hmem⟩, hx'⟩

theorem pairwise_flatMap {α β : Type} {R' : α → α → Prop} {R : β → β → Prop}
    {m : List α} {f : α → List β} (hm : m.Pairwise R')
    (hin : ∀ e ∈ m, (f e).Pairwise R)
    (hcross : ∀ e1 ∈ m, ∀ e2 ∈ m, R' e1 e2 → ∀ x ∈ f e1, ∀ y ∈ f e2, R x y) :
    (m.flatMap f).Pairwise R := by
  induction m with
  | nil => simp
  | cons a as ih =>
    rw [List.flatMap_cons, List.pairwise_append]
    refine ⟨hin a (by simp), ?_, ?_⟩
    · exact ih hm.tail (fun e he => hin e (by simp [he]))
        (fun e1 h1 e2 h2 hr => hcross e1 (by simp [h1]) e2 (by simp [h2]) hr)
    · intro x hx y hy
      rcases List.mem_flatMap.mp hy with ⟨e, he, hye⟩
      exact hcross a (by simp) e (by simp [he])
        (List.rel_of_pairwise_cons hm he) x hx y hye

theorem Sorted_remove {m : RMap} {r : Rng} (hs : Sorted m)
    (hne : ∀ e ∈ m, e.1.start < e.1.stop) (hr : r.start < r.stop) :
    Sorted (RMap.remove m r) := by
  refine pairwise_flatMap hs ?_ ?_
  · intro e _
    unfold clipEntry
    by_cases h1 : e.1.start < r.start <;> by_cases h2 : r.stop < e.1.stop <;>
      simp [h1, h2] <;> omega
  · intro e1 h1 e2 h2 hrel x hx y hy
    have c1 := mem_clipEntry_char (hne e1 h1) hx
    have c2 := mem_clipEntry_char (hne e2 h2) hy
    calc x.1.stop ≤ e1.1.stop := c1.2.2.1
    _ ≤ e2.1.start := hrel
    _ ≤ y.1.start := c2.2.1

theorem NE_remove {m : RMap} {r : Rng}
    (hne : ∀ e ∈ m, e.1.start < e.1.stop) :
    ∀ e' ∈ RMap.remove m r, e'.1.start < e'.1.stop := by
  intro e' h
  rcases mem_remove.mp h with ⟨e, he, hmem⟩
  exact (mem_clipEntry_char (hne e he) hmem).2.2.2.1

theorem disjoint_remove {m : RMap} {r : Rng}
    (hne : ∀ e ∈ m, e.1.start < e.1.stop) :
    ∀ e' ∈ RMap.remove m r, e'.1.stop ≤ r.start ∨ r.stop ≤ e'.1.start := by
  intro e' h
  rcases mem_remove.mp h with ⟨e, he, hmem⟩
  exact (mem_clipEntry_char (hne e he) hmem).2.2.2.2

theorem keys_remove_sublist {m : RMap} {r : Rng}
    (h : ∀ e ∈ m, ¬(e.1.start < r.start ∧ r.stop < e.1.stop)) :
    ((RMap.remove m r).map (fun e => e.2)).Sublist (m.map (fun e => e.2)) := by
  induction m with
  | nil => simp [RMap.remove]
  | cons a as ih =>
    have hlen : (clipEntry r a).length ≤ 1 := by
      by_contra hc
      exact h a (by simp) (clipEntry_split_iff.mp (by omega))
    have step : RMap.remove (a :: as) r = clipEntry r a ++ RMap.remove as r := by
      simp [RMap.remove]
    rw [step, List.map_append, List.map_cons]
    have ih' := ih (fun e he => h e (by simp [he]))
    match hce : clipEntry r a with
    | [] => simpa using List.Sublist.cons a.2 ih'
    | [p] =>
      have hp : p.2 = a.2 := mem_clipEntry_key (by rw [hce]; simp)
      simpa [hp] using List.Sublist.cons₂ a.2 ih'
    | p :: q :: rest => rw [hce] at hlen; simp at hlen

theorem KeysOK_remove {m : RMap} {r : Rng} (hk : KeysOK m)
    (h : ∀ e ∈ m, ¬(e.1.start < r.start ∧ r.stop < e.1.stop)) :
    KeysOK (RMap.remove m r) := by
  unfold KeysOK at *
  have hs := keys_remove_sublist (m := m) (r := r) h
  have hm : (m.map (fun e => e.2)).Pairwise (fun k1 k2 => k1 ≠ k2) :=
    List.pairwise_map.mpr hk
  exact List.pairwise_map.mp (List.Pairwise.sublist hs hm)

theorem EntryOK_remove {m : RMap} {r : Rng}
    (h : ∀ e ∈ m, EntryOK e) : ∀ e' ∈ RMap.remove m r, EntryOK e' := by
  intro e' he'
  rcases mem_remove.mp he' with ⟨e, he, hmem⟩
  have c := mem_clipEntry_char (h e he).1 hmem
  exact ⟨c.2.2.2.1, lt_of_le_of_lt c.2.2.1 (h e he).2⟩

/-! ## `insertSorted` lemmas -/

theorem mem_insertSorted {e a : Rng × Key} {m : RMap} :
    a ∈ insertSorted e m ↔ a = e ∨ a ∈ m := by
  induction m with
  | nil => simp [insertSorted]
  | cons x xs ih =>
    unfold insertSorted
    by_cases h : e.1.start ≤ x.1.start <;> simp [h, ih] <;> tauto

theorem insertSorted_eq_append {e : Rng × Key} {A B : RMap}
    (hA : ∀ a ∈ A, a.1.start < e.1.start)
    (hB : ∀ b ∈ B.head?, e.1.start ≤ b.1.start) :
    insertSorted e (A ++ B) = A ++ e :: B := by
  induction A with
  | nil =>
    cases B with
    | nil => simp [insertSorted]
    | cons b bs =>
      have := hB b (by simp)
      simp [insertSorted, this]
  | cons a as ih =>
    have ha := hA a (by simp)
    have hcond : ¬ e.1.start ≤ a.1.start := by omega
    simp only [List.cons_append, insertSorted, if_neg hcond]
    exact congrArg (a :: ·) (ih (fun x hx => hA x (by simp [hx])))

theorem Sorted_insertSorted {m : RMap} {e : Rng × Key} (hs : Sorted m)
    (hne : ∀ a ∈ m, a.1.start < a.1.stop) (he : e.1.start < e.1.stop)
    (hdisj : ∀ a ∈ m, a.1.stop ≤ e.1.start ∨ e.1.stop ≤ a.1.start) :
    Sorted (insertSorted e m) := by
  unfold Sorted at *
  induction m with
  | nil => simp [insertSorted]
  | cons x xs ih =>
    simp only [insertSorted]
    by_cases h : e.1.start ≤ x.1.start
    · rw [if_pos h]
      have hx : e.1.stop ≤ x.1.start := by
        rcases hdisj x (by simp) with h' | h'
        · have := hne x (by simp); omega
        · exact h'
      refine List.Pairwise.cons ?_ hs
      intro b hb
      rcases List.mem_cons.mp hb with rfl | hb'
      · exact hx
      · have h1 := List.rel_of_pairwise_cons hs hb'
        have h2 := hne x (by simp)
        omega
    · rw [if_neg h]
      have hx : x.1.stop ≤ e.1.start := by
        rcases hdisj x (by simp) with h' | h'
        · exact h'
        · omega
      refine List.Pairwise.cons ?_ ?_
      · intro b hb
        rcases mem_insertSorted.mp hb with rfl | hb'
        · exact hx
        · exact List.rel_of_pairwise_cons hs hb'
      · exact ih hs.tail (fun a ha => hne a (by simp [ha]))
          (fun a ha => hdisj a (by simp [ha]))

theorem KeysOK_insertSorted {m : RMap} {e : Rng × Key} (hk : KeysOK m)
    (hfresh : ∀ a ∈ m, a.2 ≠ e.2) : KeysOK (insertSorted e m) := by
  unfold KeysOK at *
  induction m with
  | nil => simp [insertSorted]
  | cons x xs ih =>
    simp only [insertSorted]
    by_cases h : e.1.start ≤ x.1.start
    · rw [if_pos h]
      refine List.Pairwise.cons ?_ hk
      intro b hb
      exact fun hbad => hfresh b hb hbad.symm
    · rw [if_neg h]
      refine List.Pairwise.cons ?_ ?_
      · intro b hb
        rcases mem_insertSorted.mp hb with rfl | hb'
        · exact fun hbad => hfresh x (by simp) hbad
        · exact List.rel_of_pairwise_cons hk hb'
      · exact ih hk.tail (fun a ha => hfresh a (by simp [ha]))

/-! ## `glue` lemmas -/

theorem glue_nil : glue [] = [] := by simp [glue]

theorem glue_singleton (e : Rng × Key) : glue [e] = [e] := by simp [glue]

theorem glue_cons_cons_skip {e1 e2 : Rng × Key} {rest : RMap}
    (h : ¬(e1.1.stop = e2.1.start ∧ e1.2 = e2.2)) :
    glue (e1 :: e2 :: rest) = e1 :: glue (e2 :: rest) := by
  rw [glue]
  simp [h]

theorem glue_cons_cons_merge {e1 e2 : Rng × Key} {rest : RMap}
    (h : e1.1.stop = e2.1.start ∧ e1.2 = e2.2) :
    glue (e1 :: e2 :: rest) =
      glue ((⟨⟨e1.1.start, e2.1.stop⟩, e1.2⟩ : Rng × Key) :: rest) := by
  rw [glue]
  simp [h]

theorem glue_eq_self {m : RMap}
    (h : m.Chain' (fun e1 e2 => ¬(e1.1.stop = e2.1.start ∧ e1.2 = e2.2))) :
    glue m = m := by
  induction m with
  | nil => exact glue_nil
  | cons e1 tail ih =>
    cases tail with
    | nil => exact glue_singleton e1
    | cons e2 rest =>
      rw [glue_cons_cons_skip (List.chain'_cons.mp h).1]
      rw [ih (List.chain'_cons.mp h).2]

theorem KeysOK_chain_nonmerge {m : RMap} (hk : KeysOK m) :
    m.Chain' (fun e1 e2 => ¬(e1.1.stop = e2.1.start ∧ e1.2 = e2.2)) := by
  refine List.Chain'.imp ?_ hk.chain'
  intro a b hne hbad
  exact hne hbad.2

theorem glue_eq_self_of_KeysOK {m : RMap} (hk : KeysOK m) : glue m = m :=
  glue_eq_self (KeysOK_chain_nonmerge hk)

theorem glue_append {A B : RMap}
    (hA : A.Chain' (fun e1 e2 => ¬(e1.1.stop = e2.1.start ∧ e1.2 = e2.2)))
    (hlink : ∀ x ∈ A.getLast?, ∀ y ∈ B.head?,
      ¬(x.1.stop = y.1.start ∧ x.2 = y.2)) :
    glue (A ++ B) = A ++ glue B := by
  induction A with
  | nil => simp
  | cons a as ih =>
    cases as with
    | nil =>
      cases B with
      | nil => simp [glue_singleton, glue_nil]
      | cons b bs =>
        simp only [List.nil_append, List.singleton_append]
        rw [glue_cons_cons_skip (hlink a (by simp) b (by simp))]
    | cons a' as' =>
      simp only [List.cons_append]
      rw [glue_cons_cons_skip (List.chain'_cons.mp hA).1]
      have := ih (List.chain'_cons.mp hA).2
        (by intro x hx y hy; exact hlink x (by simpa using hx) y hy)
      simp only [List.cons_append] at this
      rw [this]

/-! ## `get_key_value` lemmas -/

theorem get_key_value_none_iff {m : RMap} {x : Nat} :
    RMap.get_key_value m x = none ↔ ∀ e ∈ m, ¬ e.1.contains x := by
  simp [RMap.get_key_value, List.find?_eq_none]

theorem get_key_value_mem {m : RMap} {x : Nat} {e : Rng × Key}
    (h : RMap.get_key_value m x = some e) : e ∈ m ∧ e.1.contains x := by
  refine ⟨List.mem_of_find?_eq_some h, ?_⟩
  have := List.find?_some h
  simpa using this

theorem get_key_value_eq_some_of_mem {m : RMap} {e : Rng × Key} {x : Nat}
    (hs : Sorted m) (hmem : e ∈ m) (hx : e.1.contains x) :
    RMap.get_key_value m x = some e := by
  induction m with
  | nil => simp at hmem
  | cons a as ih =>
    by_cases ha : a.1.contains x
    · have : e = a := by
        rcases List.mem_cons.mp hmem with rfl | he'
        · rfl
        · have := List.rel_of_pairwise_cons hs he'
          unfold Rng.contains at hx ha
          omega
      subst this
      simp [RMap.get_key_value, List.find?_cons, ha]
    · have he' : e ∈ as := by
        rcases List.mem_cons.mp hmem with rfl | he'
        · exact absurd hx ha
        · exact he'
      have := ih hs.tail he'
      simp only [RMap.get_key_value, List.find?_cons] at this ⊢
      simpa [ha] using this

theorem get_key_value_decomp {m : RMap} {x : Nat} {e : Rng × Key}
    (h : RMap.get_key_value m x = some e) :
    ∃ A B, m = A ++ e :: B ∧ ∀ a ∈ A, ¬ a.1.contains x := by
  rcases List.find?_eq_some.mp h with ⟨_, A, B, rfl, hA⟩
  exact ⟨A, B, rfl, fun a ha => by simpa using hA a ha⟩

theorem cover_iff_isSome {m : RMap} {x : Nat} :
    cover m x ↔ (RMap.get_key_value m x).isSome := by
  constructor
  · rintro ⟨e, he, hx⟩
    rcases h : RMap.get_key_value m x with _ | e'
    · exact absurd hx (get_key_value_none_iff.mp h e he)
    · simp
  · intro h
    rcases hkv : RMap.get_key_value m x with _ | e'
    · rw [hkv] at h; simp at h
    · exact ⟨e', (get_key_value_mem hkv).1, (get_key_value_mem hkv).2⟩

theorem valueAt_not_cover {T : Type} {m : RMap} {d : Store T} {x : Nat}
    (h : ¬ cover m x) : valueAt m d x = none := by
  unfold valueAt
  rcases hkv : RMap.get_key_value m x with _ | e'
  · rfl
  · exact absurd (cover_iff_isSome.mpr (by rw [hkv]; simp)) h

theorem Sorted_of_SortedSep {m : RMap} (h : SortedSep m) : Sorted m :=
  h.imp (fun hlt => le_of_lt hlt)

theorem key_unique {m : RMap} (hk : KeysOK m) {e1 e2 : Rng × Key}
    (h1 : e1 ∈ m) (h2 : e2 ∈ m) (heq : e1.2 = e2.2) : e1 = e2 := by
  induction m with
  | nil => simp at h1
  | cons a as ih =>
    rcases List.mem_cons.mp h1 with rfl | h1' <;>
      rcases List.mem_cons.mp h2 with h2' | h2'
    · exact h2'.symm
    · exact absurd heq (List.rel_of_pairwise_cons hk h2')
    · rw [h2'] at heq
      exact absurd heq.symm (List.rel_of_pairwise_cons hk h1')
    · exact ih hk.tail h1' h2'

/-! ## `Store` lemmas -/

theorem Store.insert_self {T : Type} (d : Store T) (k : Key) (v : Rng × List T) :
    Store.insert d k v k = some v := by simp [Store.insert]

theorem Store.insert_other {T : Type} (d : Store T) {k k' : Key} (v : Rng × List T)
    (h : k' ≠ k) : Store.insert d k v k' = d k' := by simp [Store.insert, h]

theorem Store.remove_other {T : Type} (d : Store T) {k k' : Key}
    (h : k' ≠ k) : Store.remove d k k' = d k' := by simp [Store.remove, h]

/-! ## More `clipEntry` shapes -/

theorem clipEntry_of_disjoint {r : Rng} {e : Rng × Key}
    (h : e.1.stop ≤ r.start ∨ r.stop ≤ e.1.start) (hne : e.1.start < e.1.stop)
    (hr : r.start ≤ r.stop) : clipEntry r e = [e] := by
  unfold clipEntry
  rcases h with h | h
  · rw [if_pos (by omega), if_neg (by omega)]
    simp [show min e.1.stop r.start = e.1.stop from by omega]
  · rw [if_neg (by omega), if_pos (by omega)]
    simp [show max e.1.start r.stop = e.1.start from by omega]

theorem clipEntry_of_covered {r : Rng} {e : Rng × Key}
    (h1 : r.start ≤ e.1.start) (h2 : e.1.stop ≤ r.stop) : clipEntry r e = [] := by
  unfold clipEntry
  rw [if_neg (by omega), if_neg (by omega)]
  simp

theorem remove_append {A B : RMap} {r : Rng} :
    RMap.remove (A ++ B) r = RMap.remove A r ++ RMap.remove B r := by
  simp [RMap.remove]

theorem remove_cons {a : Rng × Key} {A : RMap} {r : Rng} :
    RMap.remove (a :: A) r = clipEntry r a ++ RMap.remove A r := by
  simp [RMap.remove]

theorem remove_of_all_disjoint {A : RMap} {r : Rng}
    (h : ∀ a ∈ A, a.1.stop ≤ r.start ∨ r.stop ≤ a.1.start)
    (hne : ∀ a ∈ A, a.1.start < a.1.stop) (hr : r.start ≤ r.stop) :
    RMap.remove A r = A := by
  induction A with
  | nil => simp [RMap.remove]
  | cons a as ih =>
    rw [remove_cons, clipEntry_of_disjoint (h a (by simp)) (hne a (by simp)) hr,
      ih (fun x hx => h x (by simp [hx])) (fun x hx => hne x (by simp [hx]))]
    simp

/-! ## Fresh-key `RMap.insert` -/

theorem RMap.insert_eq_of_fresh {m : RMap} {r : Rng} {v : Key}
    (hk : KeysOK m)
    (hnosplit : ∀ e ∈ m, ¬(e.1.start < r.start ∧ r.stop < e.1.stop))
    (hfresh : ∀ e ∈ m, e.2 ≠ v) :
    RMap.insert m r v = insertSorted (r, v) (RMap.remove m r) := by
  unfold RMap.insert
  apply glue_eq_self_of_KeysOK
  apply KeysOK_insertSorted (KeysOK_remove hk hnosplit)
  intro a ha
  rcases mem_remove.mp ha with ⟨e, he, hmem⟩
  rw [mem_clipEntry_key hmem]
  exact hfresh e he

theorem raw_insert_spec {T : Type} {s : SparseVec T} {ir : Rng} {d : List T}
    {target : Nat → Option T}
    (hs : Sorted s.map) (hok : ∀ e ∈ s.map, EntryOK e) (hkk : KeysOK s.map)
    (hal : AlignPt s.map s.data ir target)
    (hfresh : ∀ e ∈ s.map, e.2 < s.key_counter)
    (hnosplit : ∀ e ∈ s.map, ¬(e.1.start < ir.start ∧ ir.stop < e.1.stop))
    (hir : ir.start < ir.stop) (hirb : ir.stop < U64)
    (hd : d.length = ir.stop - ir.start) :
    Sorted (s.raw_insert ir d).map ∧
    (∀ e ∈ (s.raw_insert ir d).map, EntryOK e) ∧
    KeysOK (s.raw_insert ir d).map ∧
    Align (s.raw_insert ir d).map (s.raw_insert ir d).data
      (fun x => if ir.contains x then d[x - ir.start]? else target x) ∧
    (∀ x, cover (s.raw_insert ir d).map x ↔ ir.contains x ∨ cover s.map x) ∧
    (∀ e ∈ (s.raw_insert ir d).map, e.2 < (s.raw_insert ir d).key_counter) := by
  have hne : ∀ e ∈ s.map, e.1.start < e.1.stop := fun e he => (hok e he).1
  have hfresh' : ∀ e ∈ s.map, e.2 ≠ s.key_counter :=
    fun e he => Nat.ne_of_lt (hfresh e he)
  have hmap : (s.raw_insert ir d).map =
      insertSorted (ir, s.key_counter) (RMap.remove s.map ir) := by
    show RMap.insert s.map ir s.key_counter = _
    exact RMap.insert_eq_of_fresh hkk hnosplit hfresh'
  have hmem : ∀ e', e' ∈ (s.raw_insert ir d).map ↔
      e' = (ir, s.key_counter) ∨ e' ∈ RMap.remove s.map ir := by
    intro e'; rw [hmap]; exact mem_insertSorted
  have hremNE := NE_remove (m := s.map) (r := ir) hne
  have hremDisj := disjoint_remove (m := s.map) (r := ir) hne
  have hremKey : ∀ e' ∈ RMap.remove s.map ir, ∃ e ∈ s.map,
      e'.2 = e.2 ∧ e.1.start ≤ e'.1.start ∧ e'.1.stop ≤ e.1.stop := by
    intro e' he'
    rcases mem_remove.mp he' with ⟨e, he, hmem'⟩
    have c := mem_clipEntry_char (hne e he) hmem'
    exact ⟨e, he, c.1, c.2.1, c.2.2.1⟩
  refine ⟨?_, ?_, ?_, ?_, ?_, ?_⟩
  · rw [hmap]
    exact Sorted_insertSorted (Sorted_remove hs hne hir) hremNE hir hremDisj
  · intro e' he'
    rcases (hmem e').mp he' with rfl | h
    · exact ⟨hir, hirb⟩
    · exact EntryOK_remove hok e' h
  · rw [hmap]
    apply KeysOK_insertSorted (KeysOK_remove hkk hnosplit)
    intro a ha
    rcases hremKey a ha with ⟨e, he, hk2, _⟩
    rw [hk2]
    exact hfresh' e he
  · intro e' he'
    rcases (hmem e').mp he' with rfl | h
    · refine ⟨ir, d, ?_, ?_, le_refl _, le_refl _, ?_⟩
      · exact Store.insert_self s.data s.key_counter (ir, d)
      · exact hd
      · intro x hx
        show d[x - ir.start]? = if ir.contains x then d[x - ir.start]? else target x
        rw [if_pos hx]
    · rcases mem_remove.mp h with ⟨e, he, hmem'⟩
      have c := mem_clipEntry_char (hne e he) hmem'
      have hxn : ∀ x, e'.1.contains x → e.1.contains x ∧ ¬ ir.contains x := by
        intro x hx
        unfold Rng.contains at *
        rcases c.2.2.2.2 with hlr | hlr <;> constructor <;> omega
      rcases hal e he with ⟨rg0, buf, hdata, hlen, hval⟩
      refine ⟨rg0, buf, ?_, hlen, ?_, ?_, ?_⟩
      · show Store.insert s.data s.key_counter (ir, d) e'.2 = some (rg0, buf)
        rw [Store.insert_other s.data (ir, d) (by rw [c.1]; exact hfresh' e he), c.1]
        exact hdata
      · have h1 := hxn e'.1.start ⟨le_refl _, c.2.2.2.1⟩
        exact (hval _ h1.1 h1.2).1.1
      · have hstop : e'.1.contains (e'.1.stop - 1) := by
          unfold Rng.contains
          have := c.2.2.2.1
          omega
        have h1 := hxn _ hstop
        have := (hval _ h1.1 h1.2).1
        unfold Rng.contains at this
        omega
      · intro x hx
        have h1 := hxn x hx
        show buf[x - rg0.start]? = if ir.contains x then d[x - ir.start]? else target x
        rw [if_neg h1.2]
        exact (hval x h1.1 h1.2).2
  · intro x
    constructor
    · rintro ⟨e', he', hx⟩
      rcases (hmem e').mp he' with rfl | h
      · exact Or.inl hx
      · rcases mem_remove.mp h with ⟨e, he, hmem'⟩
        have c := mem_clipEntry_char (hne e he) hmem'
        refine Or.inr ⟨e, he, ?_⟩
        unfold Rng.contains at *
        omega
    · rintro (hx | ⟨e, he, hx⟩)
      · exact ⟨(ir, s.key_counter), (hmem _).mpr (Or.inl rfl), hx⟩
      · by_cases hxi : ir.contains x
        · exact ⟨(ir, s.key_counter), (hmem _).mpr (Or.inl rfl), hxi⟩
        · rcases (cover_clipEntry (hne e he) hir).mpr ⟨hx, hxi⟩ with ⟨e', hmem', hx'⟩
          exact ⟨e', (hmem _).mpr (Or.inr (mem_remove.mpr ⟨e, he, hmem'⟩)), hx'⟩
  · intro e' he'
    rcases (hmem e').mp he' with rfl | h
    · simp [SparseVec.raw_insert]
    · rcases hremKey e' h with ⟨e, he, hk2, _⟩
      rw [show (s.raw_insert ir d).key_counter = s.key_counter + 1 from rfl, hk2]
      exact Nat.lt_succ_of_lt (hfresh e he)

/-! ## `resize_block` and the resize phase -/

theorem resize_block_spec {T : Type} {d : Store T} {key : Key} (range : Rng) {rg0 : Rng}
    {buf : List T}
    (hd : d key = some (rg0, buf)) (hlen : buf.length = rg0.stop - rg0.start)
    (h1 : rg0.start ≤ range.start) (h2 : range.start ≤ range.stop)
    (h3 : range.stop ≤ rg0.stop) (h4 : range.stop < U64) :
    ∃ buf', SparseVec.resize_block d key range = Store.insert d key (range, buf') ∧
      buf'.length = range.stop - range.start ∧
      ∀ x, range.contains x → buf'[x - range.start]? = buf[x - rg0.start]? := by
  unfold SparseVec.resize_block
  rw [hd]
  have hsr : sub_range range rg0.start = ⟨range.start - rg0.start, range.stop - rg0.start⟩ :=
    sub_range_of_le h1 h2 h4
  refine ⟨_, rfl, ?_, ?_⟩
  · simp only [cast_range, hsr, slice_index, List.length_take, List.length_drop]
    omega
  · intro x hx
    unfold Rng.contains at hx
    simp only [cast_range, hsr, slice_index]
    rw [List.getElem?_take, if_pos (by omega), List.getElem?_drop]
    congr 1
    omega

theorem resize_block_frame {T : Type} (d : Store T) (key : Key) (range : Rng)
    {k : Key} (h : k ≠ key) : SparseVec.resize_block d key range k = d k := by
  unfold SparseVec.resize_block
  rcases d key with _ | v
  · rfl
  · exact Store.insert_other d _ h

theorem resizeAll_cons {T : Type} (e : Rng × Key) (m : RMap) (d : Store T) :
    resizeAll (e :: m) d = resizeAll m (SparseVec.resize_block d e.2 e.1) := by
  simp [resizeAll]

theorem resizeAll_spec {T : Type} {m : RMap} {d : Store T} {target : Nat → Option T}
    (hkk : KeysOK m) (hok : ∀ e ∈ m, EntryOK e) (hal : Align m d target) :
    LockstepVal m (resizeAll m d) target ∧
    (∀ k, (∀ e ∈ m, e.2 ≠ k) → resizeAll m d k = d k) := by
  induction m generalizing d with
  | nil => exact ⟨fun e he => absurd he (by simp), fun k _ => rfl⟩
  | cons a as ih =>
    rcases hal a (by simp) with ⟨rg0, buf, hdata, hlen, hsub1, hsub2, hval⟩
    have haok := hok a (by simp)
    rcases resize_block_spec a.1 hdata hlen hsub1 (le_of_lt haok.1) hsub2 haok.2 with
      ⟨buf', hrb, hlen', hval'⟩
    have halas : Align as (SparseVec.resize_block d a.2 a.1) target := by
      intro e he
      rcases hal e (by simp [he]) with ⟨rg1, buf1, hdata1, h1, h2, h3, h4⟩
      refine ⟨rg1, buf1, ?_, h1, h2, h3, h4⟩
      rw [resize_block_frame d a.2 a.1
        (fun hbad => (List.rel_of_pairwise_cons hkk he) hbad.symm)]
      exact hdata1
    rcases ih hkk.tail (fun e he => hok e (by simp [he])) halas with ⟨ihl, ihf⟩
    constructor
    · intro e he
      rcases List.mem_cons.mp he with rfl | he'
      · refine ⟨buf', ?_, hlen', ?_⟩
        · rw [resizeAll_cons, ihf e.2 (fun e' he' =>
            fun hbad => (List.rel_of_pairwise_cons hkk he') hbad.symm), hrb]
          exact Store.insert_self d e.2 (e.1, buf')
        · intro x hx
          rw [hval' x hx]
          rcases hx with ⟨hx1, hx2⟩
          exact hval x ⟨hx1, hx2⟩
      · exact ihl e he'
    · intro k hk
      rw [resizeAll_cons, ihf k (fun e he => hk e (by simp [he])),
        resize_block_frame d a.2 a.1 (fun hbad => hk a (by simp) hbad.symm)]

/-! ## Pointwise value helper -/

theorem valueAt_eq {T : Type} {m : RMap} {d : Store T} {e : Rng × Key} {rg0 : Rng}
    {buf : List T} {x : Nat} (hs : Sorted m) (he : e ∈ m) (hx : e.1.contains x)
    (hd : d e.2 = some (rg0, buf)) : valueAt m d x = buf[x - rg0.start]? := by
  simp only [valueAt, get_key_value_eq_some_of_mem hs he hx, hd]

/-! ## One-sided `clipEntry` shapes -/

theorem clipEntry_left {r : Rng} {e : Rng × Key} (h1 : e.1.start < r.start)
    (h2 : r.start ≤ e.1.stop) (h3 : e.1.stop ≤ r.stop) :
    clipEntry r e = [(⟨e.1.start, r.start⟩, e.2)] := by
  unfold clipEntry
  rw [if_pos h1, if_neg (by omega), min_eq_right h2]
  simp

theorem clipEntry_right {r : Rng} {e : Rng × Key} (h1 : r.stop < e.1.stop)
    (h2 : e.1.start ≤ r.stop) (h3 : r.start ≤ e.1.start) :
    clipEntry r e = [(⟨r.stop, e.1.stop⟩, e.2)] := by
  unfold clipEntry
  rw [if_neg (by omega), if_pos h1, max_eq_right h2]
  simp

/-! ## Merge phase -/

theorem KeysOK_of_keys_sublist {m m' : RMap}
    (h : (m'.map (fun e => e.2)).Sublist (m.map (fun e => e.2)))
    (hk : KeysOK m) : KeysOK m' :=
  List.pairwise_map.mp (List.Pairwise.sublist h (List.pairwise_map.mpr hk))

theorem findAdjacent_none {m : RMap} (h : findAdjacent m = none) :
    m.Chain' (fun e1 e2 => e1.1.stop ≠ e2.1.start) := by
  induction m with
  | nil => simp
  | cons e1 tail ih =>
    cases tail with
    | nil => simp
    | cons e2 rest =>
      rw [findAdjacent] at h
      by_cases hadj : e1.1.stop = e2.1.start
      · rw [if_pos hadj] at h; simp at h
      · rw [if_neg hadj] at h
        exact List.chain'_cons.mpr ⟨hadj, ih h⟩

theorem findAdjacent_some {m : RMap} {r1 r2 : Rng}
    (h : findAdjacent m = some (r1, r2)) :
    ∃ A k1 k2 B, m = A ++ (r1, k1) :: (r2, k2) :: B ∧ r1.stop = r2.start := by
  induction m with
  | nil => simp [findAdjacent] at h
  | cons e1 tail ih =>
    cases tail with
    | nil => simp [findAdjacent] at h
    | cons e2 rest =>
      rw [findAdjacent] at h
      by_cases hadj : e1.1.stop = e2.1.start
      · rw [if_pos hadj] at h
        simp only [Option.some_inj, Prod.mk.injEq] at h
        refine ⟨[], e1.2, e2.2, rest, ?_, ?_⟩
        · simp [← h.1, ← h.2]
        · rw [h.1, h.2] at hadj; exact hadj
      · rw [if_neg hadj] at h
        rcases ih h with ⟨A, k1, k2, B, hdec, hadj'⟩
        exact ⟨e1 :: A, k1, k2, B, by simp [hdec], hadj'⟩

theorem SortedSep_of_chain {m : RMap} (hs : Sorted m)
    (hne : ∀ e ∈ m, e.1.start < e.1.stop)
    (hc : m.Chain' (fun e1 e2 => e1.1.stop ≠ e2.1.start)) : SortedSep m := by
  induction m with
  | nil => simp [SortedSep]
  | cons a l ih =>
    refine List.Pairwise.cons ?_ (ih hs.tail (fun e he => hne e (by simp [he]))
      (List.Chain'.tail hc))
    intro b hb
    cases l with
    | nil => simp at hb
    | cons c l' =>
      have hac : a.1.stop ≤ c.1.start := List.rel_of_pairwise_cons hs (by simp)
      have hanec : a.1.stop ≠ c.1.start := (List.chain'_cons.mp hc).1
      rcases List.mem_cons.mp hb with rfl | hb'
      · omega
      · have hcb : c.1.stop ≤ b.1.start :=
          List.rel_of_pairwise_cons hs.tail hb'
        have hcne := hne c (by simp)
        omega

theorem mergeStep_spec {T : Type} {s : SparseVec T} {target : Nat → Option T}
    {A B : RMap} {r1 r2 : Rng} {k1 k2 : Key}
    (hs : Sorted s.map) (hok : ∀ e ∈ s.map, EntryOK e) (hkk : KeysOK s.map)
    (hl : LockstepVal s.map s.data target)
    (hdec : s.map = A ++ (r1, k1) :: (r2, k2) :: B) (hadj : r1.stop = r2.start) :
    (s.mergeStep r1 r2).map = A ++ (⟨r1.start, r2.stop⟩, k1) :: B ∧
    Sorted (s.mergeStep r1 r2).map ∧
    (∀ e ∈ (s.mergeStep r1 r2).map, EntryOK e) ∧
    KeysOK (s.mergeStep r1 r2).map ∧
    LockstepVal (s.mergeStep r1 r2).map (s.mergeStep r1 r2).data target ∧
    (∀ x, cover (s.mergeStep r1 r2).map x ↔ cover s.map x) ∧
    (∀ e ∈ (s.mergeStep r1 r2).map, ∃ e0 ∈ s.map, e.2 = e0.2) ∧
    (s.mergeStep r1 r2).map.length + 1 = s.map.length ∧
    (s.mergeStep r1 r2).key_counter = s.key_counter := by
  have hm1 : (r1, k1) ∈ s.map := by rw [hdec]; simp
  have hm2 : (r2, k2) ∈ s.map := by rw [hdec]; simp
  have hok1 := hok _ hm1
  have hok2 := hok _ hm2
  have hne1 : r1.start < r1.stop := hok1.1
  have hne2 : r2.start < r2.stop := hok2.1
  -- structural facts from the decomposition
  have hsX : List.Pairwise (fun e1 e2 : Rng × Key => e1.1.stop ≤ e2.1.start)
      (A ++ (r1, k1) :: (r2, k2) :: B) := by
    have h := hs; rw [hdec] at h; exact h
  have hkX : List.Pairwise (fun e1 e2 : Rng × Key => e1.2 ≠ e2.2)
      (A ++ (r1, k1) :: (r2, k2) :: B) := by
    have h := hkk; rw [hdec] at h; exact h
  rw [List.pairwise_append] at hsX hkX
  have hsA : Sorted A := hsX.1
  have hsrest := hsX.2.1
  have hcrossS := hsX.2.2
  have hkA := hkX.1
  have hkrest := hkX.2.1
  have hcrossK := hkX.2.2
  have hk12 : k1 ≠ k2 :=
    List.rel_of_pairwise_cons hkrest (List.mem_cons_self _ _)
  have hArel : ∀ a ∈ A, a.1.stop ≤ r1.start :=
    fun a ha => hcrossS a ha _ (List.mem_cons_self _ _)
  have hBrel : ∀ b ∈ B, r2.stop ≤ b.1.start :=
    fun b hb => List.rel_of_pairwise_cons hsrest.tail hb
  have hANE : ∀ a ∈ A, a.1.start < a.1.stop :=
    fun a ha => (hok a (by rw [hdec]; simp [ha])).1
  have hBNE : ∀ b ∈ B, b.1.start < b.1.stop :=
    fun b hb => (hok b (by rw [hdec]; simp [hb])).1
  -- the lookups taken by mergeStep
  have hget1 : RMap.get s.map r1.start = some k1 := by
    unfold RMap.get
    rw [get_key_value_eq_some_of_mem hs hm1 ⟨le_refl _, hne1⟩]
    rfl
  have hget2 : RMap.get s.map r2.start = some k2 := by
    unfold RMap.get
    rw [get_key_value_eq_some_of_mem hs hm2 ⟨le_refl _, hne2⟩]
    rfl
  rcases hl _ hm2 with ⟨vec2, hd2x, hlen2x, hval2x⟩
  rcases hl _ hm1 with ⟨vec1, hd1x, hlen1x, hval1x⟩
  have hd2 : s.data k2 = some (r2, vec2) := hd2x
  have hd1 : s.data k1 = some (r1, vec1) := hd1x
  have hlen1 : vec1.length = r1.stop - r1.start := hlen1x
  have hlen2 : vec2.length = r2.stop - r2.start := hlen2x
  have hval1 : ∀ x, r1.contains x → vec1[x - r1.start]? = target x := hval1x
  have hval2 : ∀ x, r2.contains x → vec2[x - r2.start]? = target x := hval2x
  have hd1' : Store.remove s.data k2 k1 = some (r1, vec1) := by
    rw [Store.remove_other s.data hk12]; exact hd1
  -- reduce mergeStep
  have hstep : s.mergeStep r1 r2 =
      { map := RMap.insert (RMap.remove s.map r2) (⟨r1.start, r2.stop⟩ : Rng) k1,
        data := Store.insert (Store.remove s.data k2) k1
          ((⟨r1.start, r2.stop⟩ : Rng), vec1 ++ vec2),
        key_counter := s.key_counter } := by
    simp only [SparseVec.mergeStep, hget1, hget2, hd2, hd1']
  -- compute the removal
  have hremA : RMap.remove A r2 = A := by
    apply remove_of_all_disjoint ?_ hANE (le_of_lt hne2)
    intro a ha
    have h1 := hArel a ha
    left
    omega
  have hrem1 : clipEntry r2 (r1, k1) = [(r1, k1)] :=
    clipEntry_of_disjoint (Or.inl (le_of_eq hadj)) hne1 (le_of_lt hne2)
  have hrem2 : clipEntry r2 (r2, k2) = [] :=
    clipEntry_of_covered (le_refl _) (le_refl _)
  have hremB : RMap.remove B r2 = B :=
    remove_of_all_disjoint (fun b hb => Or.inr (hBrel b hb)) hBNE (le_of_lt hne2)
  have hrem : RMap.remove s.map r2 = A ++ (r1, k1) :: B := by
    rw [hdec, remove_append, remove_cons, remove_cons, hremA, hrem1, hrem2, hremB]
    simp
  -- compute the insert of the merged range
  have hmglt : r1.start < r2.stop := by omega
  have hinsA : RMap.remove A (⟨r1.start, r2.stop⟩ : Rng) = A := by
    apply remove_of_all_disjoint (r := (⟨r1.start, r2.stop⟩ : Rng))
    · intro a ha
      have h1 := hArel a ha
      left
      show a.1.stop ≤ r1.start
      exact h1
    · exact hANE
    · show r1.start ≤ r2.stop
      omega
  have hins1 : clipEntry (⟨r1.start, r2.stop⟩ : Rng) (r1, k1) = [] :=
    clipEntry_of_covered (le_refl _) (by show r1.stop ≤ r2.stop; omega)
  have hinsB : RMap.remove B (⟨r1.start, r2.stop⟩ : Rng) = B := by
    apply remove_of_all_disjoint (r := (⟨r1.start, r2.stop⟩ : Rng))
    · intro b hb
      have h1 := hBrel b hb
      right
      show r2.stop ≤ b.1.start
      exact h1
    · exact hBNE
    · show r1.start ≤ r2.stop
      omega
  have hinsS : insertSorted ((⟨r1.start, r2.stop⟩ : Rng), k1) (A ++ B) =
      A ++ ((⟨r1.start, r2.stop⟩ : Rng), k1) :: B := by
    apply insertSorted_eq_append
    · intro a ha
      have h1 := hArel a ha
      have h2 := hANE a ha
      show a.1.start < r1.start
      omega
    · intro b hb
      have h1 := hBrel b (List.mem_of_mem_head? hb)
      show r1.start ≤ b.1.start
      omega
  have hsub : ((A ++ ((⟨r1.start, r2.stop⟩ : Rng), k1) :: B).map (fun e => e.2)).Sublist
      (s.map.map (fun e => e.2)) := by
    rw [hdec]
    simp only [List.map_append, List.map_cons]
    exact List.Sublist.append_left
      (List.Sublist.cons₂ k1 (List.Sublist.cons k2 (List.Sublist.refl _))) _
  have hkk'' : KeysOK (A ++ ((⟨r1.start, r2.stop⟩ : Rng), k1) :: B) :=
    KeysOK_of_keys_sublist hsub hkk
  have hmerged : (s.mergeStep r1 r2).map = A ++ ((⟨r1.start, r2.stop⟩ : Rng), k1) :: B := by
    rw [hstep]
    show RMap.insert (RMap.remove s.map r2) _ k1 = _
    rw [hrem]
    unfold RMap.insert
    rw [remove_append, remove_cons, hinsA, hins1, hinsB, List.nil_append, hinsS]
    exact glue_eq_self_of_KeysOK hkk''
  have hkk' : KeysOK (s.mergeStep r1 r2).map := by
    rw [hmerged]; exact hkk''
  have hdata' : (s.mergeStep r1 r2).data =
      Store.insert (Store.remove s.data k2) k1
        ((⟨r1.start, r2.stop⟩ : Rng), vec1 ++ vec2) := by rw [hstep]
  have hKother : ∀ e ∈ A, e.2 ≠ k1 ∧ e.2 ≠ k2 := by
    intro e he
    exact ⟨hcrossK e he (r1, k1) (List.mem_cons_self _ _),
      hcrossK e he (r2, k2) (List.mem_cons_of_mem _ (List.mem_cons_self _ _))⟩
  have hKotherB : ∀ e ∈ B, e.2 ≠ k1 ∧ e.2 ≠ k2 := by
    intro e he
    constructor
    · intro hbad
      exact (List.rel_of_pairwise_cons hkrest (by simp [he])) hbad.symm
    · intro hbad
      exact (List.rel_of_pairwise_cons hkrest.tail he) hbad.symm
  refine ⟨hmerged, ?_, ?_, hkk', ?_, ?_, ?_, ?_, ?_⟩
  · -- Sorted
    rw [hmerged]
    show List.Pairwise (fun e1 e2 : Rng × Key => e1.1.stop ≤ e2.1.start)
      (A ++ ((⟨r1.start, r2.stop⟩ : Rng), k1) :: B)
    rw [List.pairwise_append]
    refine ⟨?_, ?_, ?_⟩
    · exact hsA
    · refine List.Pairwise.cons ?_ hsrest.tail.tail
      intro b hb
      exact hBrel b hb
    · intro a ha b hb
      rcases List.mem_cons.mp hb with rfl | hb'
      · exact hArel a ha
      · exact hcrossS a ha b (by simp [hb'])
  · -- EntryOK
    intro e he
    rw [hmerged] at he
    rcases List.mem_append.mp he with hA | hrest
    · exact hok e (by rw [hdec]; simp [hA])
    · rcases List.mem_cons.mp hrest with rfl | hB
      · exact ⟨hmglt, hok2.2⟩
      · exact hok e (by rw [hdec]; simp [hB])
  · -- LockstepVal
    intro e he
    rw [hmerged] at he
    rw [hdata']
    rcases List.mem_append.mp he with hA | hrest
    · rcases hKother e hA with ⟨hk1', hk2'⟩
      rcases hl e (by rw [hdec]; simp [hA]) with ⟨buf, hdb, hlb, hvb⟩
      refine ⟨buf, ?_, hlb, hvb⟩
      rw [Store.insert_other _ _ hk1', Store.remove_other _ hk2']
      exact hdb
    · rcases List.mem_cons.mp hrest with rfl | hB
      · refine ⟨vec1 ++ vec2, Store.insert_self _ _ _, ?_, ?_⟩
        · show (vec1 ++ vec2).length = r2.stop - r1.start
          rw [List.length_append]
          omega
        · intro x hx
          have hx1 : r1.start ≤ x := hx.1
          have hx2 : x < r2.stop := hx.2
          show (vec1 ++ vec2)[x - r1.start]? = target x
          by_cases hxm : x < r1.stop
          · rw [List.getElem?_append_left (by omega)]
            exact hval1 x ⟨hx1, hxm⟩
          · rw [List.getElem?_append_right (by omega)]
            have hidx : x - r1.start - vec1.length = x - r2.start := by omega
            rw [hidx]
            exact hval2 x ⟨by omega, hx2⟩
      · rcases hKotherB e hB with ⟨hk1', hk2'⟩
        rcases hl e (by rw [hdec]; simp [hB]) with ⟨buf, hdb, hlb, hvb⟩
        refine ⟨buf, ?_, hlb, hvb⟩
        rw [Store.insert_other _ _ hk1', Store.remove_other _ hk2']
        exact hdb
  · -- cover
    intro x
    rw [hmerged, hdec]
    unfold cover
    constructor
    · rintro ⟨e, he, hx⟩
      rcases List.mem_append.mp he with hA | hrest
      · exact ⟨e, by simp [hA], hx⟩
      · rcases List.mem_cons.mp hrest with rfl | hB
        · have hx1 : r1.start ≤ x := hx.1
          have hx2 : x < r2.stop := hx.2
          by_cases hxm : x < r1.stop
          · exact ⟨(r1, k1), by simp, hx1, hxm⟩
          · refine ⟨(r2, k2), by simp, ?_, hx2⟩
            show r2.start ≤ x
            omega
        · exact ⟨e, by simp [hB], hx⟩
    · rintro ⟨e, he, hx⟩
      simp only [List.mem_append, List.mem_cons] at he
      rcases he with hA | rfl | rfl | hB
      · exact ⟨e, by simp [hA], hx⟩
      · have hx1 : r1.start ≤ x := hx.1
        have hx2 : x < r1.stop := hx.2
        refine ⟨((⟨r1.start, r2.stop⟩ : Rng), k1), by simp, hx1, ?_⟩
        show x < r2.stop
        omega
      · have hx1 : r2.start ≤ x := hx.1
        have hx2 : x < r2.stop := hx.2
        refine ⟨((⟨r1.start, r2.stop⟩ : Rng), k1), by simp, ?_, hx2⟩
        show r1.start ≤ x
        omega
      · exact ⟨e, by simp [hB], hx⟩
  · -- keys are old keys
    intro e he
    rw [hmerged] at he
    rcases List.mem_append.mp he with hA | hrest
    · exact ⟨e, by rw [hdec]; simp [hA], rfl⟩
    · rcases List.mem_cons.mp hrest with rfl | hB
      · exact ⟨(r1, k1), by rw [hdec]; simp, rfl⟩
      · exact ⟨e, by rw [hdec]; simp [hB], rfl⟩
  · -- length
    rw [hmerged, hdec]
    simp only [List.length_append, List.length_cons]
    omega
  · rw [hstep]

theorem mergeFuel_spec {T : Type} {target : Nat → Option T} :
    ∀ (n : Nat) (s : SparseVec T), s.map.length ≤ n →
    Sorted s.map → (∀ e ∈ s.map, EntryOK e) → KeysOK s.map →
    LockstepVal s.map s.data target →
    SortedSep (mergeFuel n s).map ∧
    (∀ e ∈ (mergeFuel n s).map, EntryOK e) ∧
    KeysOK (mergeFuel n s).map ∧
    LockstepVal (mergeFuel n s).map (mergeFuel n s).data target ∧
    (∀ x, cover (mergeFuel n s).map x ↔ cover s.map x) ∧
    (∀ e ∈ (mergeFuel n s).map, ∃ e0 ∈ s.map, e.2 = e0.2) ∧
    (mergeFuel n s).key_counter = s.key_counter := by
  intro n
  induction n with
  | zero =>
    intro s hlen hs hok hkk hl
    have h0 : s.map = [] := List.length_eq_zero.mp (Nat.le_zero.mp hlen)
    rw [mergeFuel]
    exact ⟨by rw [h0]; simp [SortedSep], hok, hkk, hl, fun x => Iff.rfl,
      fun e he => ⟨e, he, rfl⟩, rfl⟩
  | succ n ih =>
    intro s hlen hs hok hkk hl
    rw [mergeFuel]
    rcases hfa : findAdjacent s.map with _ | ⟨r1, r2⟩
    · refine ⟨?_, hok, hkk, hl, fun x => Iff.rfl, fun e he => ⟨e, he, rfl⟩, rfl⟩
      exact SortedSep_of_chain hs (fun e he => (hok e he).1) (findAdjacent_none hfa)
    · rcases findAdjacent_some hfa with ⟨A, k1, k2, B, hdec, hadj⟩
      rcases mergeStep_spec hs hok hkk hl hdec hadj with
        ⟨hmap', hs', hok', hkk', hl', hcov', hkeys', hlen', hkc'⟩
      have hlen'' : (s.mergeStep r1 r2).map.length ≤ n := by omega
      rcases ih (s.mergeStep r1 r2) hlen'' hs' hok' hkk' hl' with
        ⟨ih1, ih2, ih3, ih4, ih5, ih6, ih7⟩
      refine ⟨ih1, ih2, ih3, ih4, ?_, ?_, ?_⟩
      · intro x
        rw [ih5 x, hcov' x]
      · intro e he
        rcases ih6 e he with ⟨e1, he1, hk1⟩
        rcases hkeys' e1 he1 with ⟨e0, he0, hk0⟩
        exact ⟨e0, he0, by rw [hk1, hk0]⟩
      · rw [ih7, hkc']

theorem merge_phase_spec {T : Type} {s : SparseVec T} {target : Nat → Option T}
    (hs : Sorted s.map) (hok : ∀ e ∈ s.map, EntryOK e) (hkk : KeysOK s.map)
    (hl : LockstepVal s.map s.data target) :
    SortedSep s.merge_phase.map ∧
    (∀ e ∈ s.merge_phase.map, EntryOK e) ∧
    KeysOK s.merge_phase.map ∧
    LockstepVal s.merge_phase.map s.merge_phase.data target ∧
    (∀ x, cover s.merge_phase.map x ↔ cover s.map x) ∧
    (∀ e ∈ s.merge_phase.map, ∃ e0 ∈ s.map, e.2 = e0.2) ∧
    s.merge_phase.key_counter = s.key_counter :=
  mergeFuel_spec s.map.length s (le_refl _) hs hok hkk hl

/-! ## Phase 0 -/

theorem phase0_spec {T : Type} {s : SparseVec T} (ir : Rng)
    (hWF : s.WF) (hir : ir.start < ir.stop) (hirb : ir.stop < U64) :
    Sorted (s.phase0 ir).map ∧
    (∀ e ∈ (s.phase0 ir).map, EntryOK e) ∧
    KeysOK (s.phase0 ir).map ∧
    AlignPt (s.phase0 ir).map (s.phase0 ir).data ir (valueAt s.map s.data) ∧
    (∀ x, cover (s.phase0 ir).map x ↔ cover s.map x) ∧
    (∀ e ∈ (s.phase0 ir).map, e.2 < (s.phase0 ir).key_counter) ∧
    (∀ e ∈ (s.phase0 ir).map, ¬(e.1.start < ir.start ∧ ir.stop < e.1.stop)) := by
  rcases hWF with ⟨hsep, hok, hkk, hls, horph, hkb⟩
  have hs : Sorted s.map := Sorted_of_SortedSep hsep
  have hne : ∀ e ∈ s.map, e.1.start < e.1.stop := fun e he => (hok e he).1
  have htriv : AlignPt s.map s.data ir (valueAt s.map s.data) := by
    intro e he
    rcases hls e he with ⟨buf, hdb, hlb⟩
    exact ⟨e.1, buf, hdb, hlb, fun x hx _ => ⟨hx, (valueAt_eq hs he hx hdb).symm⟩⟩
  rcases hkv : RMap.get_key_value s.map ir.start with _ | ⟨rgB, key⟩
  -- Case: no block covers the start of the insert range
  · have hget : RMap.get s.map ir.start = none := by
      unfold RMap.get; rw [hkv]; rfl
    have h0 : s.phase0 ir = s := by
      unfold SparseVec.phase0; rw [hget]
    rw [h0]
    refine ⟨hs, hok, hkk, htriv, fun x => Iff.rfl, hkb, ?_⟩
    intro e he hbad
    have hx : e.1.contains ir.start := ⟨le_of_lt hbad.1, by omega⟩
    have heq := get_key_value_eq_some_of_mem hs he hx
    rw [hkv] at heq
    exact Option.noConfusion heq
  -- Case: the block (rgB, key) covers the start
  · have hmemB := get_key_value_mem hkv
    have hmB : (rgB, key) ∈ s.map := hmemB.1
    have hB1 : rgB.start ≤ ir.start := hmemB.2.1
    have hB2 : ir.start < rgB.stop := hmemB.2.2
    have hget : RMap.get s.map ir.start = some key := by
      unfold RMap.get; rw [hkv]; rfl
    by_cases hcond : RMap.get s.map ir.stop = some key
    case neg =>
      have h0 : s.phase0 ir = s := by
        simp only [SparseVec.phase0, hget]
        rw [if_neg hcond]
      rw [h0]
      refine ⟨hs, hok, hkk, htriv, fun x => Iff.rfl, hkb, ?_⟩
      intro e he hbad
      have hx : e.1.contains ir.start := ⟨le_of_lt hbad.1, by omega⟩
      have heq := get_key_value_eq_some_of_mem hs he hx
      rw [hkv] at heq
      have he' : e = (rgB, key) := (Option.some_inj.mp heq).symm
      apply hcond
      unfold RMap.get
      rw [get_key_value_eq_some_of_mem hs hmB
        ⟨show rgB.start ≤ ir.stop by omega,
         show ir.stop < rgB.stop by rw [he'] at hbad; exact hbad.2⟩]
      rfl
    case pos =>
      -- the same key covers ir.stop, so rgB strictly contains ir on the right
      have hcovStop : ∃ e2, RMap.get_key_value s.map ir.stop = some e2 ∧ e2.2 = key := by
        unfold RMap.get at hcond
        rcases h2 : RMap.get_key_value s.map ir.stop with _ | e2
        · rw [h2] at hcond; simp at hcond
        · rw [h2] at hcond
          simp at hcond
          exact ⟨e2, rfl, hcond⟩
      rcases hcovStop with ⟨e2, hkv2, hk2⟩
      have hm2 := get_key_value_mem hkv2
      have he2 : e2 = (rgB, key) := key_unique hkk hm2.1 hmB (by rw [hk2])
      have hBstop : ir.stop < rgB.stop := by
        have h3 := hm2.2
        rw [he2] at h3
        exact h3.2
      have hokB := hok _ hmB
      have hbndB : rgB.stop < U64 := hokB.2
      rcases hls _ hmB with ⟨vec0, hdk0, hlk0⟩
      have hdkey : s.data key = some (rgB, vec0) := hdk0
      have hlenvec : vec0.length = rgB.stop - rgB.start := hlk0
      rcases get_key_value_decomp hkv with ⟨A, Bb, hdec, _⟩
      have hsepX : List.Pairwise (fun e1 e2 : Rng × Key => e1.1.stop < e2.1.start)
          (A ++ (rgB, key) :: Bb) := by
        have h := hsep; rw [hdec] at h; exact h
      have hkX : List.Pairwise (fun e1 e2 : Rng × Key => e1.2 ≠ e2.2)
          (A ++ (rgB, key) :: Bb) := by
        have h := hkk; rw [hdec] at h; exact h
      rw [List.pairwise_append] at hsepX hkX
      have hsA := hsepX.1
      have hsrest := hsepX.2.1
      have hcrossS := hsepX.2.2
      have hkA := hkX.1
      have hkrest := hkX.2.1
      have hcrossK := hkX.2.2
      have hArel : ∀ a ∈ A, a.1.stop < rgB.start :=
        fun a ha => hcrossS a ha _ (List.mem_cons_self _ _)
      have hBrel : ∀ b ∈ Bb, rgB.stop < b.1.start :=
        fun b hb => List.rel_of_pairwise_cons hsrest hb
      have hANE : ∀ a ∈ A, a.1.start < a.1.stop :=
        fun a ha => (hok a (by rw [hdec]; simp [ha])).1
      have hBNE : ∀ b ∈ Bb, b.1.start < b.1.stop :=
        fun b hb => (hok b (by rw [hdec]; simp [hb])).1
      have hAkeys : ∀ a ∈ A, a.2 ≠ key :=
        fun a ha => hcrossK a ha _ (List.mem_cons_self _ _)
      have hBkeys : ∀ b ∈ Bb, key ≠ b.2 :=
        fun b hb => List.rel_of_pairwise_cons hkrest hb
      have hkc : key < s.key_counter := hkb _ hmB
      have hkcA : ∀ a ∈ A, a.2 < s.key_counter :=
        fun a ha => hkb a (by rw [hdec]; simp [ha])
      have hkcB : ∀ b ∈ Bb, b.2 < s.key_counter :=
        fun b hb => hkb b (by rw [hdec]; simp [hb])
      -- the upper split range and its buffer
      have hsubUp : cast_range (sub_range (⟨ir.stop, rgB.stop⟩ : Rng) rgB.start) =
          (⟨ir.stop - rgB.start, rgB.stop - rgB.start⟩ : Rng) := by
        show sub_range (⟨ir.stop, rgB.stop⟩ : Rng) rgB.start = _
        rw [sub_range_of_le (r := (⟨ir.stop, rgB.stop⟩ : Rng))
          (show rgB.start ≤ ir.stop by omega)
          (show ir.stop ≤ rgB.stop by omega) hbndB]
      -- map after the upper insert
      have hremA : RMap.remove A (⟨ir.stop, rgB.stop⟩ : Rng) = A := by
        apply remove_of_all_disjoint (r := (⟨ir.stop, rgB.stop⟩ : Rng))
        · intro a ha
          left
          show a.1.stop ≤ ir.stop
          have h1 := hArel a ha
          omega
        · exact hANE
        · show ir.stop ≤ rgB.stop
          omega
      have hremMid : clipEntry (⟨ir.stop, rgB.stop⟩ : Rng) (rgB, key)
          = [((⟨rgB.start, ir.stop⟩ : Rng), key)] :=
        clipEntry_left (by show rgB.start < ir.stop; omega)
          (by show ir.stop ≤ rgB.stop; omega) (le_refl _)
      have hremBb : RMap.remove Bb (⟨ir.stop, rgB.stop⟩ : Rng) = Bb := by
        apply remove_of_all_disjoint (r := (⟨ir.stop, rgB.stop⟩ : Rng))
        · intro b hb
          right
          show rgB.stop ≤ b.1.start
          have h1 := hBrel b hb
          omega
        · exact hBNE
        · show ir.stop ≤ rgB.stop
          omega
      have hkres : KeysOK (A ++ ((⟨rgB.start, ir.stop⟩ : Rng), key) ::
          ((⟨ir.stop, rgB.stop⟩ : Rng), s.key_counter) :: Bb) := by
        unfold KeysOK
        rw [List.pairwise_append]
        refine ⟨hkA, ?_, ?_⟩
        · refine List.Pairwise.cons ?_ (List.Pairwise.cons ?_ hkrest.tail)
          · intro b hb
            rcases List.mem_cons.mp hb with rfl | hb'
            · show key ≠ s.key_counter
              exact Nat.ne_of_lt hkc
            · exact hBkeys b hb'
          · intro b hb
            show s.key_counter ≠ b.2
            exact (Nat.ne_of_lt (hkcB b hb)).symm
        · intro a ha b hb
          rcases List.mem_cons.mp hb with rfl | hb'
          · exact hAkeys a ha
          · rcases List.mem_cons.mp hb' with rfl | hb''
            · show a.2 ≠ s.key_counter
              exact Nat.ne_of_lt (hkcA a ha)
            · exact hcrossK a ha b (by simp [hb''])
      have hmapU : RMap.insert s.map (⟨ir.stop, rgB.stop⟩ : Rng) s.key_counter =
          A ++ ((⟨rgB.start, ir.stop⟩ : Rng), key) ::
            ((⟨ir.stop, rgB.stop⟩ : Rng), s.key_counter) :: Bb := by
        unfold RMap.insert
        rw [hdec, remove_append, remove_cons, hremA, hremMid, hremBb]
        rw [show A ++ ([((⟨rgB.start, ir.stop⟩ : Rng), key)] ++ Bb) =
          (A ++ [((⟨rgB.start, ir.stop⟩ : Rng), key)]) ++ Bb from by simp]
        rw [insertSorted_eq_append ?hA ?hB]
        case hA =>
          intro a ha
          rcases List.mem_append.mp ha with ha' | ha'
          · have h1 := hArel a ha'
            have h2 := hANE a ha'
            show a.1.start < ir.stop
            omega
          · have ha2 : a = ((⟨rgB.start, ir.stop⟩ : Rng), key) := by simpa using ha'
            rw [ha2]
            show rgB.start < ir.stop
            omega
        case hB =>
          intro b hb
          have h1 := hBrel b (List.mem_of_mem_head? hb)
          show ir.stop ≤ b.1.start
          omega
        rw [show (A ++ [((⟨rgB.start, ir.stop⟩ : Rng), key)]) ++
            ((⟨ir.stop, rgB.stop⟩ : Rng), s.key_counter) :: Bb =
          A ++ ((⟨rgB.start, ir.stop⟩ : Rng), key) ::
            ((⟨ir.stop, rgB.stop⟩ : Rng), s.key_counter) :: Bb from by simp]
        exact glue_eq_self_of_KeysOK hkres
      -- common assembly, given the final data facts
      have main :
          (s.phase0 ir).map = A ++ ((⟨rgB.start, ir.stop⟩ : Rng), key) ::
            ((⟨ir.stop, rgB.stop⟩ : Rng), s.key_counter) :: Bb →
          (s.phase0 ir).key_counter = s.key_counter + 1 →
          (∀ k, k ≠ s.key_counter → k ≠ key → (s.phase0 ir).data k = s.data k) →
          ((s.phase0 ir).data s.key_counter = some ((⟨ir.stop, rgB.stop⟩ : Rng),
            slice_index vec0 (⟨ir.stop - rgB.start, rgB.stop - rgB.start⟩ : Rng))) →
          (∃ rg0 buf, (s.phase0 ir).data key = some (rg0, buf) ∧
            buf.length = rg0.stop - rg0.start ∧
            ∀ x, rgB.start ≤ x → x < ir.start →
              rg0.contains x ∧ buf[x - rg0.start]? = valueAt s.map s.data x) →
          Sorted (s.phase0 ir).map ∧
          (∀ e ∈ (s.phase0 ir).map, EntryOK e) ∧
          KeysOK (s.phase0 ir).map ∧
          AlignPt (s.phase0 ir).map (s.phase0 ir).data ir (valueAt s.map s.data) ∧
          (∀ x, cover (s.phase0 ir).map x ↔ cover s.map x) ∧
          (∀ e ∈ (s.phase0 ir).map, e.2 < (s.phase0 ir).key_counter) ∧
          (∀ e ∈ (s.phase0 ir).map, ¬(e.1.start < ir.start ∧ ir.stop < e.1.stop)) := by
        intro hm0 hkc0 hdO hdUp hdK
        rcases hdK with ⟨rgk, bufk, hdkeyF, hlenk, hvalk⟩
        have hbupLen : (slice_index vec0
            (⟨ir.stop - rgB.start, rgB.stop - rgB.start⟩ : Rng)).length
            = rgB.stop - ir.stop := by
          unfold slice_index
          rw [List.length_take, List.length_drop, hlenvec]
          show min (rgB.stop - rgB.start - (ir.stop - rgB.start))
            (rgB.stop - rgB.start - (ir.stop - rgB.start)) = _
          omega
        have hbupVal : ∀ x, ir.stop ≤ x → x < rgB.stop →
            (slice_index vec0 (⟨ir.stop - rgB.start, rgB.stop - rgB.start⟩ : Rng))[x - ir.stop]?
              = valueAt s.map s.data x := by
          intro x h1 h2
          have hv : valueAt s.map s.data x = vec0[x - rgB.start]? :=
            valueAt_eq hs hmB ⟨show rgB.start ≤ x by omega, h2⟩ hdkey
          rw [hv]
          show ((vec0.drop (ir.stop - rgB.start)).take
            (rgB.stop - rgB.start - (ir.stop - rgB.start)))[x - ir.stop]?
            = vec0[x - rgB.start]?
          rw [List.getElem?_take,
            if_pos (show x - ir.stop < rgB.stop - rgB.start - (ir.stop - rgB.start)
              by omega),
            List.getElem?_drop]
          have hix : ir.stop - rgB.start + (x - ir.stop) = x - rgB.start := by omega
          rw [hix]
        refine ⟨?_, ?_, ?_, ?_, ?_, ?_, ?_⟩
        · -- Sorted
          rw [hm0]
          show List.Pairwise (fun e1 e2 : Rng × Key => e1.1.stop ≤ e2.1.start) _
          rw [List.pairwise_append]
          refine ⟨hsA.imp (fun h => le_of_lt h), ?_, ?_⟩
          · refine List.Pairwise.cons ?_ (List.Pairwise.cons ?_
              (hsrest.tail.imp (fun h => le_of_lt h)))
            · intro b hb
              rcases List.mem_cons.mp hb with rfl | hb'
              · show ir.stop ≤ ir.stop
                exact le_refl _
              · have h1 := hBrel b hb'
                show ir.stop ≤ b.1.start
                omega
            · intro b hb
              have h1 := hBrel b hb
              show rgB.stop ≤ b.1.start
              omega
          · intro a ha b hb
            have h1 := hArel a ha
            rcases List.mem_cons.mp hb with rfl | hb'
            · show a.1.stop ≤ rgB.start
              omega
            · rcases List.mem_cons.mp hb' with rfl | hb''
              · show a.1.stop ≤ ir.stop
                omega
              · have h2 := hBrel b hb''
                show a.1.stop ≤ b.1.start
                omega
        · -- EntryOK
          intro e he
          rw [hm0] at he
          rcases List.mem_append.mp he with hA | hrest
          · exact hok e (by rw [hdec]; simp [hA])
          · rcases List.mem_cons.mp hrest with rfl | hrest'
            · exact ⟨by show rgB.start < ir.stop; omega, hirb⟩
            · rcases List.mem_cons.mp hrest' with rfl | hB
              · exact ⟨by show ir.stop < rgB.stop; omega, hbndB⟩
              · exact hok e (by rw [hdec]; simp [hB])
        · -- KeysOK
          rw [hm0]
          exact hkres
        · -- AlignPt
          intro e he
          rw [hm0] at he
          rcases List.mem_append.mp he with hA | hrest
          · rcases hls e (by rw [hdec]; simp [hA]) with ⟨buf, hdb, hlb⟩
            refine ⟨e.1, buf, ?_, hlb, ?_⟩
            · rw [hdO e.2 (Nat.ne_of_lt (hkcA e hA)) (hAkeys e hA)]
              exact hdb
            · intro x hx _
              exact ⟨hx, (valueAt_eq hs (by rw [hdec]; simp [hA]) hx hdb).symm⟩
          · rcases List.mem_cons.mp hrest with rfl | hrest'
            · refine ⟨rgk, bufk, hdkeyF, hlenk, ?_⟩
              intro x hx hnx
              have hx1 : rgB.start ≤ x := hx.1
              have hx2 : x < ir.stop := hx.2
              have hx3 : x < ir.start := by
                rcases Nat.lt_or_ge x ir.start with h | h
                · exact h
                · exact absurd ⟨h, hx2⟩ hnx
              exact hvalk x hx1 hx3
            · rcases List.mem_cons.mp hrest' with rfl | hB
              · refine ⟨(⟨ir.stop, rgB.stop⟩ : Rng),
                  slice_index vec0 (⟨ir.stop - rgB.start, rgB.stop - rgB.start⟩ : Rng),
                  hdUp, ?_, ?_⟩
                · rw [hbupLen]
                · intro x hx _
                  have hx1 : ir.stop ≤ x := hx.1
                  have hx2 : x < rgB.stop := hx.2
                  exact ⟨⟨hx1, hx2⟩, hbupVal x hx1 hx2⟩
              · rcases hls e (by rw [hdec]; simp [hB]) with ⟨buf, hdb, hlb⟩
                refine ⟨e.1, buf, ?_, hlb, ?_⟩
                · rw [hdO e.2 (Nat.ne_of_lt (hkcB e hB))
                    (fun hbad => hBkeys e hB hbad.symm)]
                  exact hdb
                · intro x hx _
                  exact ⟨hx, (valueAt_eq hs (by rw [hdec]; simp [hB]) hx hdb).symm⟩
        · -- cover unchanged
          intro x
          rw [hm0, hdec]
          unfold cover
          constructor
          · rintro ⟨e, he, hx⟩
            rcases List.mem_append.mp he with hA | hrest
            · exact ⟨e, by simp [hA], hx⟩
            · rcases List.mem_cons.mp hrest with rfl | hrest'
              · have hx1 : rgB.start ≤ x := hx.1
                have hx2 : x < ir.stop := hx.2
                refine ⟨(rgB, key), by simp, hx1, ?_⟩
                show x < rgB.stop
                omega
              · rcases List.mem_cons.mp hrest' with rfl | hB
                · have hx1 : ir.stop ≤ x := hx.1
                  have hx2 : x < rgB.stop := hx.2
                  refine ⟨(rgB, key), by simp, ?_, hx2⟩
                  show rgB.start ≤ x
                  omega
                · exact ⟨e, by simp [hB], hx⟩
          · rintro ⟨e, he, hx⟩
            simp only [List.mem_append, List.mem_cons] at he
            rcases he with hA | rfl | hB
            · exact ⟨e, by simp [hA], hx⟩
            · have hx1 : rgB.start ≤ x := hx.1
              have hx2 : x < rgB.stop := hx.2
              rcases Nat.lt_or_ge x ir.stop with h | h
              · exact ⟨((⟨rgB.start, ir.stop⟩ : Rng), key),
                  by simp, hx1, h⟩
              · exact ⟨((⟨ir.stop, rgB.stop⟩ : Rng), s.key_counter),
                  by simp, h, hx2⟩
            · exact ⟨e, by simp [hB], hx⟩
        · -- key bound
          intro e he
          rw [hm0] at he
          rw [hkc0]
          rcases List.mem_append.mp he with hA | hrest
          · exact Nat.lt_succ_of_lt (hkcA e hA)
          · rcases List.mem_cons.mp hrest with rfl | hrest'
            · show key < s.key_counter + 1
              exact Nat.lt_succ_of_lt hkc
            · rcases List.mem_cons.mp hrest' with rfl | hB
              · show s.key_counter < s.key_counter + 1
                exact Nat.lt_succ_self _
              · exact Nat.lt_succ_of_lt (hkcB e hB)
        · -- no entry strictly contains ir
          intro e he
          rw [hm0] at he
          rcases List.mem_append.mp he with hA | hrest
          · have h1 := hArel e hA
            intro hbad
            omega
          · rcases List.mem_cons.mp hrest with rfl | hrest'
            · intro hbad
              have h1 : ir.stop < ir.stop := hbad.2
              omega
            · rcases List.mem_cons.mp hrest' with rfl | hB
              · intro hbad
                have h1 : ir.stop < ir.start := hbad.1
                omega
              · have h1 := hBrel e hB
                intro hbad
                omega
      -- now establish the data facts in the two sub-cases
      by_cases hlow : ir.start ≤ rgB.start
      case pos =>
        -- lower part empty: only the upper split happens
        have hupE : (⟨ir.stop, rgB.stop⟩ : Rng).is_empty = false := by
          simp [Rng.is_empty]
          omega
        have hlowE : (⟨rgB.start, ir.start⟩ : Rng).is_empty = true := by
          simp [Rng.is_empty]
          omega
        have hphase : s.phase0 ir =
            { map := RMap.insert s.map (⟨ir.stop, rgB.stop⟩ : Rng) s.key_counter,
              data := Store.insert s.data s.key_counter ((⟨ir.stop, rgB.stop⟩ : Rng),
                slice_index vec0 (cast_range (sub_range (⟨ir.stop, rgB.stop⟩ : Rng)
                  rgB.start))),
              key_counter := s.key_counter + 1 } := by
          simp [SparseVec.phase0, hget, hcond, hdkey, hupE, hlowE]
        apply main
        · rw [hphase]
          exact hmapU
        · rw [hphase]
        · intro k h1 _
          rw [hphase]
          exact Store.insert_other _ _ h1
        · rw [hphase, hsubUp]
          exact Store.insert_self _ _ _
        · refine ⟨rgB, vec0, ?_, hlenvec, ?_⟩
          · rw [hphase]
            show Store.insert _ _ _ key = _
            rw [Store.insert_other _ _ (show key ≠ s.key_counter from Nat.ne_of_lt hkc)]
            exact hdkey
          · intro x h1 h2
            exfalso
            omega
      case neg =>
        -- both splits happen
        have hlow' : rgB.start < ir.start := by omega
        have hupE : (⟨ir.stop, rgB.stop⟩ : Rng).is_empty = false := by
          simp [Rng.is_empty]
          omega
        have hlowE : (⟨rgB.start, ir.start⟩ : Rng).is_empty = false := by
          simp [Rng.is_empty]
          omega
        have hphase : s.phase0 ir =
            { map := RMap.insert
                (RMap.insert s.map (⟨ir.stop, rgB.stop⟩ : Rng) s.key_counter)
                (⟨rgB.start, ir.start⟩ : Rng) key,
              data := SparseVec.resize_block
                (Store.insert s.data s.key_counter ((⟨ir.stop, rgB.stop⟩ : Rng),
                  slice_index vec0 (cast_range (sub_range (⟨ir.stop, rgB.stop⟩ : Rng)
                    rgB.start))))
                key (⟨rgB.start, ir.start⟩ : Rng),
              key_counter := s.key_counter + 1 } := by
          simp [SparseVec.phase0, hget, hcond, hdkey, hupE, hlowE]
        -- the inner data after the upper insert
        have hdataU : Store.insert s.data s.key_counter ((⟨ir.stop, rgB.stop⟩ : Rng),
            slice_index vec0 (cast_range (sub_range (⟨ir.stop, rgB.stop⟩ : Rng)
              rgB.start))) key = some (rgB, vec0) := by
          rw [Store.insert_other _ _ (show key ≠ s.key_counter from Nat.ne_of_lt hkc)]
          exact hdkey
        rcases resize_block_spec (⟨rgB.start, ir.start⟩ : Rng) hdataU hlenvec (le_refl _)
          (show rgB.start ≤ ir.start by omega)
          (show ir.start ≤ rgB.stop by omega)
          (show ir.start < U64 by omega) with ⟨bufL, hrbEq, hrbLen, hrbVal⟩
        -- the lower re-insert leaves the map unchanged
        have hmapL : RMap.insert
            (A ++ ((⟨rgB.start, ir.stop⟩ : Rng), key) ::
              ((⟨ir.stop, rgB.stop⟩ : Rng), s.key_counter) :: Bb)
            (⟨rgB.start, ir.start⟩ : Rng) key =
            A ++ ((⟨rgB.start, ir.stop⟩ : Rng), key) ::
              ((⟨ir.stop, rgB.stop⟩ : Rng), s.key_counter) :: Bb := by
          have hmL1 : RMap.remove A (⟨rgB.start, ir.start⟩ : Rng) = A := by
            apply remove_of_all_disjoint (r := (⟨rgB.start, ir.start⟩ : Rng))
            · intro a ha
              left
              show a.1.stop ≤ rgB.start
              have h1 := hArel a ha
              omega
            · exact hANE
            · show rgB.start ≤ ir.start
              omega
          have hmL2 : clipEntry (⟨rgB.start, ir.start⟩ : Rng)
              ((⟨rgB.start, ir.stop⟩ : Rng), key) = [((⟨ir.start, ir.stop⟩ : Rng), key)] :=
            clipEntry_right (r := (⟨rgB.start, ir.start⟩ : Rng))
              (e := ((⟨rgB.start, ir.stop⟩ : Rng), key))
              (show ir.start < ir.stop from hir)
              (show rgB.start ≤ ir.start from hB1) (le_refl _)
          have hmL3 : clipEntry (⟨rgB.start, ir.start⟩ : Rng)
              ((⟨ir.stop, rgB.stop⟩ : Rng), s.key_counter)
              = [((⟨ir.stop, rgB.stop⟩ : Rng), s.key_counter)] :=
            clipEntry_of_disjoint (r := (⟨rgB.start, ir.start⟩ : Rng))
              (e := ((⟨ir.stop, rgB.stop⟩ : Rng), s.key_counter))
              (Or.inr (show ir.start ≤ ir.stop from le_of_lt hir))
              (show ir.stop < rgB.stop from hBstop)
              (show rgB.start ≤ ir.start from hB1)
          have hmL4 : RMap.remove Bb (⟨rgB.start, ir.start⟩ : Rng) = Bb := by
            apply remove_of_all_disjoint (r := (⟨rgB.start, ir.start⟩ : Rng))
            · intro b hb
              right
              show ir.start ≤ b.1.start
              have h1 := hBrel b hb
              omega
            · exact hBNE
            · show rgB.start ≤ ir.start
              omega
          have hmL5 : insertSorted ((⟨rgB.start, ir.start⟩ : Rng), key)
              (A ++ ((⟨ir.start, ir.stop⟩ : Rng), key) ::
                ((⟨ir.stop, rgB.stop⟩ : Rng), s.key_counter) :: Bb)
              = A ++ ((⟨rgB.start, ir.start⟩ : Rng), key) ::
                ((⟨ir.start, ir.stop⟩ : Rng), key) ::
                ((⟨ir.stop, rgB.stop⟩ : Rng), s.key_counter) :: Bb := by
            apply insertSorted_eq_append
            · intro a ha
              have h1 := hArel a ha
              have h2 := hANE a ha
              show a.1.start < rgB.start
              omega
            · intro b hb
              simp only [List.head?_cons, Option.mem_def, Option.some_inj] at hb
              rw [← hb]
              show rgB.start ≤ ir.start
              omega
          have hmL6 : glue (((⟨rgB.start, ir.start⟩ : Rng), key) ::
              ((⟨ir.start, ir.stop⟩ : Rng), key) ::
              ((⟨ir.stop, rgB.stop⟩ : Rng), s.key_counter) :: Bb)
              = ((⟨rgB.start, ir.stop⟩ : Rng), key) ::
                ((⟨ir.stop, rgB.stop⟩ : Rng), s.key_counter) :: Bb := by
            have h6a : glue (((⟨rgB.start, ir.start⟩ : Rng), key) ::
                ((⟨ir.start, ir.stop⟩ : Rng), key) ::
                ((⟨ir.stop, rgB.stop⟩ : Rng), s.key_counter) :: Bb)
                = glue (((⟨rgB.start, ir.stop⟩ : Rng), key) ::
                  ((⟨ir.stop, rgB.stop⟩ : Rng), s.key_counter) :: Bb) := by
              apply glue_cons_cons_merge
              exact ⟨rfl, rfl⟩
            have h6b : glue (((⟨rgB.start, ir.stop⟩ : Rng), key) ::
                ((⟨ir.stop, rgB.stop⟩ : Rng), s.key_counter) :: Bb)
                = ((⟨rgB.start, ir.stop⟩ : Rng), key) ::
                  glue (((⟨ir.stop, rgB.stop⟩ : Rng), s.key_counter) :: Bb) := by
              apply glue_cons_cons_skip
              intro hbad
              exact (Nat.ne_of_lt hkc) hbad.2
            have h6c : glue (((⟨ir.stop, rgB.stop⟩ : Rng), s.key_counter) :: Bb)
                = ((⟨ir.stop, rgB.stop⟩ : Rng), s.key_counter) :: Bb := by
              apply glue_eq_self_of_KeysOK
              refine List.Pairwise.cons ?_ hkrest.tail
              intro b hb
              show s.key_counter ≠ b.2
              exact (Nat.ne_of_lt (hkcB b hb)).symm
            rw [h6a, h6b, h6c]
          unfold RMap.insert
          rw [remove_append, remove_cons, remove_cons, hmL1, hmL2, hmL3, hmL4]
          rw [show A ++ ([((⟨ir.start, ir.stop⟩ : Rng), key)] ++
              ([((⟨ir.stop, rgB.stop⟩ : Rng), s.key_counter)] ++ Bb)) =
            A ++ ((⟨ir.start, ir.stop⟩ : Rng), key) ::
              ((⟨ir.stop, rgB.stop⟩ : Rng), s.key_counter) :: Bb from by simp]
          rw [hmL5]
          rw [glue_append (KeysOK_chain_nonmerge hkA)
            (by
              intro x hx y hy
              simp only [List.head?_cons, Option.mem_def, Option.some_inj] at hy
              rw [← hy]
              intro hbad
              exact hAkeys x (List.mem_of_mem_getLast? hx) hbad.2)]
          rw [hmL6]
        apply main
        · rw [hphase]
          show RMap.insert (RMap.insert s.map (⟨ir.stop, rgB.stop⟩ : Rng) s.key_counter)
            (⟨rgB.start, ir.start⟩ : Rng) key = _
          rw [hmapU]
          exact hmapL
        · rw [hphase]
        · intro k h1 h2
          rw [hphase]
          show SparseVec.resize_block _ key (⟨rgB.start, ir.start⟩ : Rng) k = s.data k
          rw [resize_block_frame _ _ _ h2]
          exact Store.insert_other _ _ h1
        · rw [hphase]
          show SparseVec.resize_block _ key (⟨rgB.start, ir.start⟩ : Rng) s.key_counter = _
          rw [resize_block_frame _ _ _
            (show s.key_counter ≠ key from (Nat.ne_of_lt hkc).symm)]
          rw [hsubUp]
          exact Store.insert_self _ _ _
        · refine ⟨(⟨rgB.start, ir.start⟩ : Rng), bufL, ?_, hrbLen, ?_⟩
          · rw [hphase]
            show SparseVec.resize_block _ key (⟨rgB.start, ir.start⟩ : Rng) key = _
            rw [hrbEq]
            exact Store.insert_self _ _ _
          · intro x h1 h2
            refine ⟨⟨h1, h2⟩, ?_⟩
            have h3 := hrbVal x ⟨h1, h2⟩
            rw [h3]
            exact (valueAt_eq hs hmB ⟨h1, show x < rgB.stop by omega⟩ hdkey).symm

/-! ## Garbage collection -/

theorem collect_garbage_map {T : Type} (s : SparseVec T) :
    s.collect_garbage.map = s.map ∧ s.collect_garbage.key_counter = s.key_counter :=
  ⟨rfl, rfl⟩

theorem collect_garbage_data_mem {T : Type} (s : SparseVec T) {k : Key}
    (h : ∃ e ∈ s.map, e.2 = k) : s.collect_garbage.data k = s.data k := by
  show (if s.map.any (fun e => e.2 == k) then s.data k else none) = s.data k
  rw [if_pos]
  rcases h with ⟨e, he, hk⟩
  exact List.any_eq_true.mpr ⟨e, he, by simp [hk]⟩

theorem collect_garbage_data_not_mem {T : Type} (s : SparseVec T) {k : Key}
    (h : ∀ e ∈ s.map, e.2 ≠ k) : s.collect_garbage.data k = none := by
  show (if s.map.any (fun e => e.2 == k) then s.data k else none) = none
  rw [if_neg]
  intro hbad
  rcases List.any_eq_true.mp hbad with ⟨e, he, hk⟩
  exact h e he (by simpa using hk)

/-! ## The master specification of `insert` -/

theorem valueAt_of_LockstepVal {T : Type} {m : RMap} {d : Store T}
    {target : Nat → Option T} (hs : Sorted m) (hl : LockstepVal m d target)
    {x : Nat} (hc : cover m x) : valueAt m d x = target x := by
  rcases hc with ⟨e, he, hx⟩
  rcases hl e he with ⟨buf, hdb, _, hvb⟩
  rw [valueAt_eq hs he hx hdb]
  exact hvb x hx

theorem insert_spec {T : Type} {s : SparseVec T} {d : List T} {addr : Nat}
    (hWF : s.WF) (hb : d = [] ∨ addr + d.length < U64) :
    (s.insert d addr).WF ∧
    (∀ x, valueAt (s.insert d addr).map (s.insert d addr).data x =
      if addr ≤ x ∧ x < addr + d.length then d[x - addr]? else valueAt s.map s.data x) ∧
    (∀ x, cover (s.insert d addr).map x ↔
      (addr ≤ x ∧ x < addr + d.length) ∨ cover s.map x) := by
  by_cases hd : d.isEmpty = true
  case pos =>
    have hdnil : d = [] := by
      cases d with
      | nil => rfl
      | cons a l => simp [List.isEmpty] at hd
    subst hdnil
    have h0 : s.insert [] addr = s := by
      unfold SparseVec.insert
      rw [if_pos hd]
    rw [h0]
    refine ⟨hWF, ?_, ?_⟩
    · intro x
      rw [if_neg (by simp)]
    · intro x
      constructor
      · exact fun h => Or.inr h
      · rintro (h | h)
        · rcases h with ⟨h1, h2⟩
          simp at h2
          omega
        · exact h
  case neg =>
    have hdne : d ≠ [] := by
      cases d with
      | nil => simp [List.isEmpty] at hd
      | cons a l => simp
    have hbnd : addr + d.length < U64 := by
      rcases hb with h | h
      · exact absurd h hdne
      · exact h
    have hdl : 0 < d.length := by
      cases d with
      | nil => simp [List.isEmpty] at hd
      | cons a l => simp
    have hins : s.insert d addr =
        ((((s.phase0 (⟨addr, addr + d.length⟩ : Rng)).raw_insert
          (⟨addr, addr + d.length⟩ : Rng) d).resize_phase).merge_phase).collect_garbage := by
      unfold SparseVec.insert
      rw [if_neg hd]
    -- phase 0
    rcases phase0_spec (⟨addr, addr + d.length⟩ : Rng) hWF
      (show addr < addr + d.length by omega)
      (show addr + d.length < U64 from hbnd) with
      ⟨hs0, hok0, hkk0, hal0, hcov0, hkb0, hnos0⟩
    -- phase 1
    rcases raw_insert_spec hs0 hok0 hkk0 hal0 hkb0 hnos0
      (show addr < addr + d.length by omega)
      (show addr + d.length < U64 from hbnd)
      (show d.length = (addr + d.length) - addr by omega) with
      ⟨hs1, hok1, hkk1, hal1, hcov1, hkb1⟩
    -- phase 2
    rcases resizeAll_spec hkk1 hok1 hal1 with ⟨hl2, _⟩
    -- phase 3
    rcases merge_phase_spec (s := ((s.phase0 (⟨addr, addr + d.length⟩ : Rng)).raw_insert
        (⟨addr, addr + d.length⟩ : Rng) d).resize_phase)
      hs1 hok1 hkk1 hl2 with
      ⟨hs3, hok3, hkk3, hl3, hcov3, hkeys3, hkc3⟩
    -- abbreviations
    generalize hS3 : ((s.phase0 (⟨addr, addr + d.length⟩ : Rng)).raw_insert
      (⟨addr, addr + d.length⟩ : Rng) d).resize_phase.merge_phase = s3 at *
    have hmap4 : (s.insert d addr).map = s3.map := by rw [hins]; rfl
    have hkc4 : (s.insert d addr).key_counter = s3.key_counter := by rw [hins]; rfl
    have hdata4mem : ∀ k, (∃ e ∈ s3.map, e.2 = k) →
        (s.insert d addr).data k = s3.data k := by
      intro k hk
      rw [hins]
      exact collect_garbage_data_mem s3 hk
    have hdata4nmem : ∀ k, (∀ e ∈ s3.map, e.2 ≠ k) →
        (s.insert d addr).data k = none := by
      intro k hk
      rw [hins]
      exact collect_garbage_data_not_mem s3 hk
    have hl4 : LockstepVal (s.insert d addr).map (s.insert d addr).data
        (fun x => if (⟨addr, addr + d.length⟩ : Rng).contains x
          then d[x - (⟨addr, addr + d.length⟩ : Rng).start]?
          else valueAt s.map s.data x) := by
      intro e he
      rw [hmap4] at he
      rcases hl3 e he with ⟨buf, hdb, hlb, hvb⟩
      refine ⟨buf, ?_, hlb, hvb⟩
      rw [hdata4mem e.2 ⟨e, he, rfl⟩]
      exact hdb
    have hcovI : ∀ x, cover (s.insert d addr).map x ↔
        (addr ≤ x ∧ x < addr + d.length) ∨ cover s.map x := by
      intro x
      rw [hmap4]
      rw [hcov3 x]
      show cover ((s.phase0 (⟨addr, addr + d.length⟩ : Rng)).raw_insert
        (⟨addr, addr + d.length⟩ : Rng) d).map x ↔ _
      rw [hcov1 x]
      constructor
      · rintro (h | h)
        · exact Or.inl h
        · exact Or.inr ((hcov0 x).mp h)
      · rintro (h | h)
        · exact Or.inl h
        · exact Or.inr ((hcov0 x).mpr h)
    have hsI : Sorted (s.insert d addr).map := by
      rw [hmap4]; exact Sorted_of_SortedSep hs3
    refine ⟨⟨?_, ?_, ?_, ?_, ?_, ?_⟩, ?_, hcovI⟩
    · rw [hmap4]; exact hs3
    · rw [hmap4]; exact hok3
    · rw [hmap4]; exact hkk3
    · intro e he
      rcases hl4 e he with ⟨buf, hdb, hlb, _⟩
      exact ⟨buf, hdb, hlb⟩
    · intro k hk
      by_cases hmem : ∃ e ∈ s3.map, e.2 = k
      · rcases hmem with ⟨e, he, hek⟩
        exact ⟨e, by rw [hmap4]; exact he, hek⟩
      · have hforall : ∀ e ∈ s3.map, e.2 ≠ k := by
          intro e he hbad
          exact hmem ⟨e, he, hbad⟩
        rw [hdata4nmem k hforall] at hk
        simp at hk
    · intro e he
      rw [hmap4] at he
      rcases hkeys3 e he with ⟨e0, he0, hk0⟩
      rw [hkc4, hkc3, hk0]
      exact hkb1 e0 he0
    · intro x
      by_cases hx : addr ≤ x ∧ x < addr + d.length
      · rw [if_pos hx]
        have hcov : cover (s.insert d addr).map x := (hcovI x).mpr (Or.inl hx)
        rw [valueAt_of_LockstepVal hsI hl4 hcov]
        show (if (⟨addr, addr + d.length⟩ : Rng).contains x
          then d[x - (⟨addr, addr + d.length⟩ : Rng).start]?
          else valueAt s.map s.data x) = d[x - addr]?
        rw [if_pos (show (⟨addr, addr + d.length⟩ : Rng).contains x from hx)]
      · rw [if_neg hx]
        by_cases hcs : cover s.map x
        · have hcov : cover (s.insert d addr).map x := (hcovI x).mpr (Or.inr hcs)
          rw [valueAt_of_LockstepVal hsI hl4 hcov]
          show (if (⟨addr, addr + d.length⟩ : Rng).contains x
            then d[x - (⟨addr, addr + d.length⟩ : Rng).start]?
            else valueAt s.map s.data x) = valueAt s.map s.data x
          rw [if_neg (show ¬ (⟨addr, addr + d.length⟩ : Rng).contains x from hx)]
        · have hncov : ¬ cover (s.insert d addr).map x := by
            intro hc
            rcases (hcovI x).mp hc with h | h
            · exact hx h
            · exact hcs h
          rw [valueAt_not_cover hncov, valueAt_not_cover hcs]

/-! ## Reachability -/

theorem WF_default (T : Type) : (SparseVec.default T).WF := by
  refine ⟨?_, ?_, ?_, ?_, ?_, ?_⟩
  · exact List.Pairwise.nil
  · intro e he; simp [SparseVec.default] at he
  · exact List.Pairwise.nil
  · intro e he; simp [SparseVec.default] at he
  · intro k hk; simp [SparseVec.default] at hk
  · intro e he; simp [SparseVec.default] at he

theorem reachable_WF {T : Type} {s : SparseVec T} (h : s.Reachable) : s.WF := by
  induction h with
  | base => exact WF_default T
  | step s d a hr hb ih => exact (insert_spec ih hb).1

/-! ## `get` and `get_mut` lemmas -/

theorem pairwise_mem_rel {α : Type} {R : α → α → Prop} {l : List α}
    (h : l.Pairwise R) {a b : α} (ha : a ∈ l) (hb : b ∈ l) :
    a = b ∨ R a b ∨ R b a := by
  induction l with
  | nil => simp at ha
  | cons x xs ih =>
    rcases List.mem_cons.mp ha with rfl | ha' <;> rcases List.mem_cons.mp hb with h2 | h2
    · exact Or.inl h2.symm
    · exact Or.inr (Or.inl (List.rel_of_pairwise_cons h h2))
    · rw [h2]
      exact Or.inr (Or.inr (List.rel_of_pairwise_cons h ha'))
    · exact ih h.tail ha' h2

/-- The covering block of a fully covered nonempty query range extends at
least to the end of the query (contiguous coverage cannot span two blocks by
disjointness and non-adjacency). -/
theorem single_block {T : Type} {s : SparseVec T} {r : Rng} {e : Rng × Key}
    (hWF : s.WF) (hr : r.start < r.stop)
    (hcov : ∀ x, r.start ≤ x → x < r.stop → cover s.map x)
    (he : e ∈ s.map) (hx : e.1.contains r.start) : r.stop ≤ e.1.stop := by
  rcases hWF with ⟨hsep, hok, _, _, _, _⟩
  by_contra hbad
  have hlt : e.1.stop < r.stop := by omega
  have hin : cover s.map e.1.stop := hcov e.1.stop (by rcases hx with ⟨_, h2⟩; omega) hlt
  rcases hin with ⟨e', he', hx'⟩
  rcases pairwise_mem_rel hsep he he' with rfl | h | h
  · rcases hx' with ⟨_, h2⟩; omega
  · rcases hx' with ⟨h1, _⟩; omega
  · rcases hx with ⟨h1, _⟩
    rcases hx' with ⟨_, h2⟩
    have := (hok e he).1
    omega

theorem get_spec_success {T : Type} {s : SparseVec T} {r : Rng}
    (hWF : s.WF) (hr : r.start < r.stop) (hb : r.stop < U64)
    (hcov : ∀ x, r.start ≤ x → x < r.stop → cover s.map x) :
    ∃ l, s.get r = some l ∧ l.length = r.stop - r.start ∧
      ∀ i, i < r.stop - r.start → l[i]? = valueAt s.map s.data (r.start + i) := by
  have hWF' := hWF
  rcases hWF' with ⟨hsep, hok, hkk, hls, _, _⟩
  have hs : Sorted s.map := Sorted_of_SortedSep hsep
  rcases hcov r.start (le_refl _) hr with ⟨e, he, hx⟩
  have hstop : r.stop ≤ e.1.stop := single_block hWF hr hcov he hx
  have hkv : RMap.get_key_value s.map r.start = some e :=
    get_key_value_eq_some_of_mem hs he hx
  rcases hls e he with ⟨buf, hdb, hlb⟩
  have hsr : sub_range r e.1.start = ⟨r.start - e.1.start, r.stop - e.1.start⟩ :=
    sub_range_of_le hx.1 (le_of_lt hr) hb
  refine ⟨slice_index buf (⟨r.start - e.1.start, r.stop - e.1.start⟩ : Rng), ?_, ?_, ?_⟩
  · simp only [SparseVec.get, hkv, hdb, hsr, cast_range, slice_get]
    rw [if_pos ?hc]
    case hc =>
      constructor
      · show r.start - e.1.start ≤ r.stop - e.1.start
        omega
      · show r.stop - e.1.start ≤ buf.length
        rw [hlb]
        omega
  · unfold slice_index
    rw [List.length_take, List.length_drop, hlb]
    show min (r.stop - e.1.start - (r.start - e.1.start))
      (e.1.stop - e.1.start - (r.start - e.1.start)) = _
    rcases hx with ⟨h1, _⟩
    omega
  · intro i hi
    unfold slice_index
    rw [List.getElem?_take, if_pos (show i < r.stop - e.1.start - (r.start - e.1.start)
      by rcases hx with ⟨h1, _⟩; omega)]
    rw [List.getElem?_drop]
    have hxin : e.1.contains (r.start + i) := by
      rcases hx with ⟨h1, h2⟩
      exact ⟨by omega, by omega⟩
    rw [valueAt_eq hs he hxin hdb]
    rcases hx with ⟨h1, _⟩
    have hix : r.start - e.1.start + i = r.start + i - e.1.start := by omega
    rw [hix]

theorem get_none_of_not_covered_start {T : Type} {s : SparseVec T} {r : Rng}
    (h : RMap.get_key_value s.map r.start = none) : s.get r = none := by
  simp only [SparseVec.get, h]

theorem get_none_of_past_end {T : Type} {s : SparseVec T} {r : Rng} {e : Rng × Key}
    (hWF : s.WF) (hkv : RMap.get_key_value s.map r.start = some e)
    (hb : r.stop < U64) (hpast : e.1.stop < r.stop) : s.get r = none := by
  rcases hWF with ⟨hsep, hok, hkk, hls, _, _⟩
  have hmem := get_key_value_mem hkv
  rcases hls e hmem.1 with ⟨buf, hdb, hlb⟩
  have hx := hmem.2
  have hsr : sub_range r e.1.start = ⟨r.start - e.1.start, r.stop - e.1.start⟩ :=
    sub_range_of_le hx.1 (by rcases hx with ⟨h1, h2⟩; omega) hb
  simp only [SparseVec.get, hkv, hdb, hsr, cast_range, slice_get]
  rw [if_neg]
  intro ⟨hc1, hc2⟩
  rw [hlb] at hc2
  rcases hx with ⟨h1, h2⟩
  have hc2' : r.stop - e.1.start ≤ e.1.stop - e.1.start := hc2
  omega

theorem get_none_of_gap {T : Type} {s : SparseVec T} {r : Rng} {x : Nat}
    (hWF : s.WF) (hb : r.stop < U64) (hx1 : r.start ≤ x) (hx2 : x < r.stop)
    (hgap : ¬ cover s.map x) : s.get r = none := by
  rcases hkv : RMap.get_key_value s.map r.start with _ | e
  · exact get_none_of_not_covered_start hkv
  · have hmem := get_key_value_mem hkv
    by_cases hpast : e.1.stop < r.stop
    · exact get_none_of_past_end hWF hkv hb hpast
    · exfalso
      apply hgap
      refine ⟨e, hmem.1, ?_, ?_⟩
      · rcases hmem.2 with ⟨h1, _⟩
        omega
      · omega

/-- Degenerate queries (`stop ≤ start`): `get` yields `none` or the empty
slice, never more; in particular the wrapped subtraction of a release build
never produces an in-bounds slice. -/
theorem get_degenerate {T : Type} {s : SparseVec T} {r : Rng}
    (hWF : s.WF) (hdeg : r.stop ≤ r.start) :
    s.get r = none ∨ s.get r = some [] := by
  rcases hkv : RMap.get_key_value s.map r.start with _ | e
  · exact Or.inl (get_none_of_not_covered_start hkv)
  · rcases hWF with ⟨hsep, hok, hkk, hls, _, _⟩
    have hmem := get_key_value_mem hkv
    rcases hls e hmem.1 with ⟨buf, hdb, hlb⟩
    rcases hmem.2 with ⟨h1, h2⟩
    have hbstart : e.1.start < U64 := by
      have := (hok e hmem.1).2
      have := (hok e hmem.1).1
      omega
    have hrstartU : r.start < U64 := by
      have := (hok e hmem.1).2
      omega
    have ha : wrap_sub r.start e.1.start = r.start - e.1.start :=
      wrap_sub_of_le h1 hrstartU
    by_cases hcase : e.1.start ≤ r.stop
    · -- no wrap in the stop component
      have hb2 : wrap_sub r.stop e.1.start = r.stop - e.1.start :=
        wrap_sub_of_le hcase (by omega)
      simp only [SparseVec.get, hkv, hdb, sub_range, ha, hb2, cast_range, slice_get]
      by_cases hc : r.start - e.1.start ≤ r.stop - e.1.start ∧
          r.stop - e.1.start ≤ buf.length
      · rw [if_pos hc]
        right
        unfold slice_index
        have : r.stop - e.1.start - (r.start - e.1.start) = 0 := by omega
        rw [this]
        simp
      · rw [if_neg hc]
        exact Or.inl rfl
    · -- the stop component wraps to a huge value, out of bounds
      have hwrap : wrap_sub r.stop e.1.start = r.stop + U64 - e.1.start := by
        unfold wrap_sub
        rw [Nat.mod_eq_of_lt (by omega)]
      simp only [SparseVec.get, hkv, hdb, sub_range, ha, hwrap, cast_range, slice_get]
      left
      rw [if_neg]
      intro ⟨hc1, hc2⟩
      rw [hlb] at hc2
      have hstopU : e.1.stop < U64 := (hok e hmem.1).2
      omega

/-- `get_mut` succeeds exactly when `get` does, and its view denotes the same
elements of the same block. -/
theorem get_mut_spec {T : Type} (s : SparseVec T) (r : Rng) :
    ((s.get_mut r).isSome = (s.get r).isSome) ∧
    (∀ k sr, s.get_mut r = some (k, sr) → ∃ rg0 buf, s.data k = some (rg0, buf) ∧
      s.get r = some (slice_index buf sr)) := by
  rcases hkv : RMap.get_key_value s.map r.start with _ | e
  · constructor
    · simp only [SparseVec.get, SparseVec.get_mut, hkv]
      rfl
    · intro k sr h
      simp only [SparseVec.get_mut, hkv] at h
      exact Option.noConfusion h
  · rcases hdb : s.data e.2 with _ | v
    · constructor
      · simp only [SparseVec.get, SparseVec.get_mut, hkv, hdb]
        rfl
      · intro k sr h
        simp only [SparseVec.get_mut, hkv, hdb] at h
        exact Option.noConfusion h
    · have hget : s.get r = slice_get v.2 (cast_range (sub_range r e.1.start)) := by
        simp only [SparseVec.get, hkv, hdb]
      have hgetm : s.get_mut r =
          (if (cast_range (sub_range r e.1.start)).start ≤
              (cast_range (sub_range r e.1.start)).stop ∧
            (cast_range (sub_range r e.1.start)).stop ≤ v.2.length
          then some (e.2, cast_range (sub_range r e.1.start)) else none) := by
        simp only [SparseVec.get_mut, hkv, hdb]
      by_cases hc : (cast_range (sub_range r e.1.start)).start ≤
          (cast_range (sub_range r e.1.start)).stop ∧
          (cast_range (sub_range r e.1.start)).stop ≤ v.2.length
      · constructor
        · rw [hget, hgetm, if_pos hc]
          unfold slice_get
          rw [if_pos hc]
          rfl
        · intro k sr h
          rw [hgetm, if_pos hc] at h
          have hk : e.2 = k := (Prod.mk.injEq _ _ _ _ |>.mp (Option.some_inj.mp h)).1
          have hsr : cast_range (sub_range r e.1.start) = sr :=
            (Prod.mk.injEq _ _ _ _ |>.mp (Option.some_inj.mp h)).2
          refine ⟨v.1, v.2, ?_, ?_⟩
          · rw [← hk, hdb]
          · rw [hget, ← hsr]
            unfold slice_get
            rw [if_pos hc]
      · constructor
        · rw [hget, hgetm, if_neg hc]
          unfold slice_get
          rw [if_neg hc]
          rfl
        · intro k sr h
          rw [hgetm, if_neg hc] at h
          exact Option.noConfusion h

/-- Empty-range point query: covered points yield `some []`, uncovered
points yield `none`. -/
theorem get_point_query {T : Type} {s : SparseVec T} {a : Nat} (hWF : s.WF) :
    (cover s.map a → s.get (⟨a, a⟩ : Rng) = some []) ∧
    (¬ cover s.map a → s.get (⟨a, a⟩ : Rng) = none) := by
  constructor
  · intro hc
    rcases hWF with ⟨hsep, hok, hkk, hls, _, _⟩
    have hs : Sorted s.map := Sorted_of_SortedSep hsep
    rcases hc with ⟨e, he, hx⟩
    have hkv : RMap.get_key_value s.map a = some e :=
      get_key_value_eq_some_of_mem hs he hx
    rcases hls e he with ⟨buf, hdb, hlb⟩
    have haU : a < U64 := by
      have := (hok e he).2
      rcases hx with ⟨_, h2⟩
      omega
    have hsr : sub_range (⟨a, a⟩ : Rng) e.1.start = ⟨a - e.1.start, a - e.1.start⟩ :=
      sub_range_of_le hx.1 (le_refl _) haU
    simp only [SparseVec.get, hkv, hdb, hsr, cast_range, slice_get]
    rw [if_pos ⟨le_refl _, by
      show a - e.1.start ≤ buf.length
      rw [hlb]
      rcases hx with ⟨h1, h2⟩
      omega⟩]
    unfold slice_index
    simp
  · intro hc
    apply get_none_of_not_covered_start
    rcases hkv : RMap.get_key_value s.map a with _ | e
    · rfl
    · exact absurd ⟨e, (get_key_value_mem hkv).1, (get_key_value_mem hkv).2⟩ hc

/-! ## Canonical decomposition and observational determinism -/

theorem rng_eq {r1 r2 : Rng} (h1 : r1.start = r2.start) (h2 : r1.stop = r2.stop) :
    r1 = r2 := by
  cases r1
  cases r2
  simp only at h1 h2
  rw [h1, h2]

theorem canon_unique : ∀ (L1 L2 : List Rng),
    L1.Pairwise (fun r1 r2 => r1.stop < r2.start) → (∀ r ∈ L1, r.start < r.stop) →
    L2.Pairwise (fun r1 r2 => r1.stop < r2.start) → (∀ r ∈ L2, r.start < r.stop) →
    (∀ x, coverR L1 x ↔ coverR L2 x) → L1 = L2 := by
  intro L1
  induction L1 with
  | nil =>
    intro L2 _ _ hp2 hne2 hcov
    cases L2 with
    | nil => rfl
    | cons r2 t2 =>
      exfalso
      have : coverR (r2 :: t2) r2.start := ⟨r2, by simp, le_refl _, hne2 r2 (by simp)⟩
      rcases (hcov r2.start).mpr this with ⟨e, he, _⟩
      simp at he
  | cons r1 t1 ih =>
    intro L2 hp1 hne1 hp2 hne2 hcov
    cases L2 with
    | nil =>
      exfalso
      have : coverR (r1 :: t1) r1.start := ⟨r1, by simp, le_refl _, hne1 r1 (by simp)⟩
      rcases (hcov r1.start).mp this with ⟨e, he, _⟩
      simp at he
    | cons r2 t2 =>
      have hmin1 : ∀ e ∈ r1 :: t1, r1.start ≤ e.start := by
        intro e he
        rcases List.mem_cons.mp he with rfl | he'
        · exact le_refl _
        · have h1 := List.rel_of_pairwise_cons hp1 he'
          have := hne1 r1 (by simp)
          omega
      have hmin2 : ∀ e ∈ r2 :: t2, r2.start ≤ e.start := by
        intro e he
        rcases List.mem_cons.mp he with rfl | he'
        · exact le_refl _
        · have h1 := List.rel_of_pairwise_cons hp2 he'
          have := hne2 r2 (by simp)
          omega
      have hstart : r1.start = r2.start := by
        have hc1 : coverR (r2 :: t2) r1.start :=
          (hcov r1.start).mp ⟨r1, by simp, le_refl _, hne1 r1 (by simp)⟩
        have hc2 : coverR (r1 :: t1) r2.start :=
          (hcov r2.start).mpr ⟨r2, by simp, le_refl _, hne2 r2 (by simp)⟩
        rcases hc1 with ⟨e2, he2, hx2⟩
        rcases hc2 with ⟨e1, he1, hx1⟩
        have := hmin2 e2 he2
        have := hmin1 e1 he1
        rcases hx1 with ⟨h1, _⟩
        rcases hx2 with ⟨h2, _⟩
        omega
      have hstop : r1.stop = r2.stop := by
        by_contra hbad
        rcases Nat.lt_or_ge r1.stop r2.stop with hlt | hge
        · have hne1' : r1.start < r1.stop := hne1 r1 (by simp)
          have hc : coverR (r1 :: t1) r1.stop :=
            (hcov r1.stop).mpr ⟨r2, by simp, by
              show r2.start ≤ r1.stop ∧ r1.stop < r2.stop
              omega⟩
          rcases hc with ⟨e1, he1, hx1⟩
          rcases List.mem_cons.mp he1 with rfl | he1'
          · rcases hx1 with ⟨_, h2⟩
            omega
          · have := List.rel_of_pairwise_cons hp1 he1'
            rcases hx1 with ⟨h1, _⟩
            omega
        · have hlt : r2.stop < r1.stop := by omega
          have hne2' : r2.start < r2.stop := hne2 r2 (by simp)
          have hc : coverR (r2 :: t2) r2.stop :=
            (hcov r2.stop).mp ⟨r1, by simp, by
              show r1.start ≤ r2.stop ∧ r2.stop < r1.stop
              omega⟩
          rcases hc with ⟨e2, he2, hx2⟩
          rcases List.mem_cons.mp he2 with rfl | he2'
          · rcases hx2 with ⟨_, h2⟩
            omega
          · have := List.rel_of_pairwise_cons hp2 he2'
            rcases hx2 with ⟨h1, _⟩
            omega
      have hr12 : r1 = r2 := rng_eq hstart hstop
      have htcov : ∀ x, coverR t1 x ↔ coverR t2 x := by
        intro x
        constructor
        · rintro ⟨e, he, hx⟩
          have hgt : r1.stop < x := by
            have h1 := List.rel_of_pairwise_cons hp1 he
            rcases hx with ⟨h2, _⟩
            omega
          rcases (hcov x).mp ⟨e, by simp [he], hx⟩ with ⟨e2, he2, hx2⟩
          rcases List.mem_cons.mp he2 with rfl | he2'
          · rcases hx2 with ⟨_, h2⟩
            rw [hstop] at hgt
            omega
          · exact ⟨e2, he2', hx2⟩
        · rintro ⟨e, he, hx⟩
          have hgt : r2.stop < x := by
            have h1 := List.rel_of_pairwise_cons hp2 he
            rcases hx with ⟨h2, _⟩
            omega
          rcases (hcov x).mpr ⟨e, by simp [he], hx⟩ with ⟨e1, he1, hx1⟩
          rcases List.mem_cons.mp he1 with rfl | he1'
          · rcases hx1 with ⟨_, h2⟩
            rw [← hstop] at hgt
            omega
          · exact ⟨e1, he1', hx1⟩
      rw [hr12, ih t2 hp1.tail (fun e he => hne1 e (by simp [he]))
        hp2.tail (fun e he => hne2 e (by simp [he])) htcov]

theorem cover_iff_coverR_ranges {T : Type} (s : SparseVec T) (x : Nat) :
    coverR s.ranges x ↔ cover s.map x := by
  unfold coverR cover SparseVec.ranges
  constructor
  · rintro ⟨rg, hrg, hx⟩
    rcases List.mem_map.mp hrg with ⟨e, he, rfl⟩
    exact ⟨e, he, hx⟩
  · rintro ⟨e, he, hx⟩
    exact ⟨e.1, List.mem_map.mpr ⟨e, he, rfl⟩, hx⟩

theorem ranges_eq_of_same_cover {T : Type} {s s' : SparseVec T}
    (h1 : s.WF) (h2 : s'.WF) (hcov : ∀ x, cover s.map x ↔ cover s'.map x) :
    s.ranges = s'.ranges := by
  apply canon_unique
  · exact h1.1.map _ (fun _ _ h => h)
  · intro rg hrg
    rcases List.mem_map.mp hrg with ⟨e, he, rfl⟩
    exact (h1.2.1 e he).1
  · exact h2.1.map _ (fun _ _ h => h)
  · intro rg hrg
    rcases List.mem_map.mp hrg with ⟨e, he, rfl⟩
    exact (h2.2.1 e he).1
  · intro x
    rw [cover_iff_coverR_ranges, cover_iff_coverR_ranges]
    exact hcov x

theorem get_eq_of_same {T : Type} {s s' : SparseVec T}
    (h1 : s.WF) (h2 : s'.WF) (hrg : s.ranges = s'.ranges)
    (hv : ∀ x, valueAt s.map s.data x = valueAt s'.map s'.data x) :
    ∀ r, s.get r = s'.get r := by
  intro r
  have hs1 : Sorted s.map := Sorted_of_SortedSep h1.1
  have hs2 : Sorted s'.map := Sorted_of_SortedSep h2.1
  rcases hkv : RMap.get_key_value s.map r.start with _ | e
  · have hkv2 : RMap.get_key_value s'.map r.start = none := by
      rw [get_key_value_none_iff] at hkv ⊢
      intro e' he' hx'
      have hrg' : e'.1 ∈ s.ranges := by
        rw [hrg]
        exact List.mem_map.mpr ⟨e', he', rfl⟩
      rcases List.mem_map.mp hrg' with ⟨e0, he0, heq⟩
      exact hkv e0 he0 (by rw [heq]; exact hx')
    rw [get_none_of_not_covered_start hkv, get_none_of_not_covered_start hkv2]
  · have hmem := get_key_value_mem hkv
    have hrg' : e.1 ∈ s'.ranges := by
      rw [← hrg]
      exact List.mem_map.mpr ⟨e, hmem.1, rfl⟩
    rcases List.mem_map.mp hrg' with ⟨e', he', heq⟩
    have hkv2 : RMap.get_key_value s'.map r.start = some e' :=
      get_key_value_eq_some_of_mem hs2 he' (by rw [heq]; exact hmem.2)
    rcases h1.2.2.2.1 e hmem.1 with ⟨buf, hdb, hlb⟩
    rcases h2.2.2.2.1 e' he' with ⟨buf', hdb', hlb'⟩
    have hbuf : buf = buf' := by
      apply List.ext_getElem?
      intro n
      by_cases hn : n < e.1.stop - e.1.start
      · have hv1 : buf[n]? = valueAt s.map s.data (e.1.start + n) := by
          rw [valueAt_eq hs1 hmem.1 ⟨by omega, by omega⟩ hdb]
          congr 1
          omega
        have hv2 : buf'[n]? = valueAt s'.map s'.data (e.1.start + n) := by
          rw [valueAt_eq hs2 he' (by rw [heq]; exact ⟨by omega, by omega⟩) hdb']
          rw [heq]
          congr 1
          omega
        rw [hv1, hv2, hv]
      · rw [List.getElem?_eq_none (by omega : buf.length ≤ n),
          List.getElem?_eq_none (by rw [hlb', heq]; omega : buf'.length ≤ n)]
    simp only [SparseVec.get, hkv, hkv2, hdb, hdb', ← heq, ← hbuf]

theorem cover_default (T : Type) (x : Nat) : ¬ cover (SparseVec.default T).map x := by
  rintro ⟨e, he, _⟩
  simp [SparseVec.default] at he

/-! ## Claims -/

/-- C1: Round trip — on a well-formed container, after `insert(d, a)` with
`d` nonempty and the address arithmetic inside `u64`, `get(a .. a + len d)`
returns exactly `d` (no further insert having touched that range). -/
theorem C1_round_trip {T : Type} {s : SparseVec T} {d : List T} {addr : Nat}
    (hWF : s.WF) (hd : d ≠ []) (hb : addr + d.length < U64) :
    (s.insert d addr).get (⟨addr, addr + d.length⟩ : Rng) = some d := by
  have hlen : 0 < d.length := List.length_pos.mpr hd
  have hspec := insert_spec hWF (Or.inr hb)
  rcases get_spec_success (r := (⟨addr, addr + d.length⟩ : Rng)) hspec.1
      (show addr < addr + d.length by omega) hb
      (fun x hx1 hx2 => (hspec.2.2 x).mpr (Or.inl ⟨hx1, hx2⟩)) with ⟨l, hg, hl, hv⟩
  have hl2 : l.length = addr + d.length - addr := hl
  have hv2 : ∀ i, i < addr + d.length - addr →
      l[i]? = valueAt (s.insert d addr).map (s.insert d addr).data (addr + i) := hv
  have hld : l = d := by
    apply List.ext_getElem?
    intro n
    by_cases hn : n < d.length
    · rw [hv2 n (by omega), hspec.2.1 (addr + n),
        if_pos (show addr ≤ addr + n ∧ addr + n < addr + d.length by omega)]
      have hix : addr + n - addr = n := by omega
      rw [hix]
    · rw [List.getElem?_eq_none (by omega : l.length ≤ n),
        List.getElem?_eq_none (by omega : d.length ≤ n)]
  rw [hg, hld]

theorem C1_witness :
    ((SparseVec.default Nat).insert [1, 2] 0).get (⟨0, 2⟩ : Rng) = some [1, 2] :=
  C1_round_trip (WF_default Nat) (by decide) (by decide)

/-- C2: Last-write-wins — after inserting `d1` at `a1` and then an
overlapping `d2` at `a2`, every address of `d1`'s range reads `d2`'s value
if it lies in `d2`'s range and its original `d1` value otherwise. -/
theorem C2_last_write_wins {T : Type} {s : SparseVec T} {d1 d2 : List T} {a1 a2 : Nat}
    (hWF : s.WF) (hb1 : d1 = [] ∨ a1 + d1.length < U64)
    (hb2 : d2 = [] ∨ a2 + d2.length < U64)
    (x : Nat) (hx1 : a1 ≤ x) (hx2 : x < a1 + d1.length) :
    valueAt ((s.insert d1 a1).insert d2 a2).map ((s.insert d1 a1).insert d2 a2).data x =
      if a2 ≤ x ∧ x < a2 + d2.length then d2[x - a2]? else d1[x - a1]? := by
  have h1 := insert_spec hWF hb1
  have h2 := insert_spec h1.1 hb2
  rw [h2.2.1 x]
  by_cases hc : a2 ≤ x ∧ x < a2 + d2.length
  · rw [if_pos hc, if_pos hc]
  · rw [if_neg hc, if_neg hc, h1.2.1 x, if_pos ⟨hx1, hx2⟩]

theorem C2_witness :
    valueAt (((SparseVec.default Nat).insert [10, 11] 0).insert [20] 1).map
      (((SparseVec.default Nat).insert [10, 11] 0).insert [20] 1).data 1 =
      if 1 ≤ 1 ∧ 1 < 1 + 1 then [20][1 - 1]? else [10, 11][1 - 0]? :=
  C2_last_write_wins (WF_default Nat) (Or.inr (by decide)) (Or.inr (by decide))
    1 (by decide) (by decide)

/-- C3: Index/store lockstep and no orphans — after any sequence of inserts
(from `default`, within the `u64` precondition), every map entry has a store
entry under its key with the same range and a buffer of matching length, no
key appears under two map entries, and every stored key occurs in the map. -/
theorem C3_lockstep {T : Type} {s : SparseVec T} (h : s.Reachable) :
    (∀ e ∈ s.map, ∃ buf, s.data e.2 = some (e.1, buf) ∧
      buf.length = e.1.stop - e.1.start) ∧
    KeysOK s.map ∧
    (∀ k, (s.data k).isSome → ∃ e ∈ s.map, e.2 = k) := by
  have hWF := reachable_WF h
  exact ⟨hWF.2.2.2.1, hWF.2.2.1, hWF.2.2.2.2.1⟩

theorem C3_witness : KeysOK ((SparseVec.default Nat).insert [3] 0).map :=
  (C3_lockstep (SparseVec.Reachable.step (SparseVec.default Nat) [3] 0
    SparseVec.Reachable.base (Or.inr (by decide)))).2.1

/-- C4: Coalescing / no adjacency — after an insert on a well-formed state no
two distinct stored ranges are adjacent; and inserting two sequences whose
ranges abut, starting from the empty container, makes `ranges()` yield one
merged range and `get` succeed across the full combined span. -/
theorem C4_coalescing {T : Type} (s : SparseVec T) (d : List T) (a : Nat)
    (d1 d2 : List T) (b : Nat)
    (hWF : s.WF) (hb : d = [] ∨ a + d.length < U64)
    (h1 : d1 ≠ []) (h2 : d2 ≠ []) (hbb : b + d1.length + d2.length < U64) :
    (∀ e1 ∈ (s.insert d a).map, ∀ e2 ∈ (s.insert d a).map, e1 ≠ e2 →
      e1.1.stop ≠ e2.1.start) ∧
    (((SparseVec.default T).insert d1 b).insert d2 (b + d1.length)).ranges =
      [(⟨b, b + d1.length + d2.length⟩ : Rng)] ∧
    ∃ l, (((SparseVec.default T).insert d1 b).insert d2 (b + d1.length)).get
        (⟨b, b + d1.length + d2.length⟩ : Rng) = some l ∧
      l.length = d1.length + d2.length := by
  have hp1 : 0 < d1.length := List.length_pos.mpr h1
  have hp2 : 0 < d2.length := List.length_pos.mpr h2
  have hspec := insert_spec hWF hb
  have ha1 := insert_spec (WF_default T) (Or.inr (show b + d1.length < U64 by omega))
  have ha2 := insert_spec ha1.1 (Or.inr (show b + d1.length + d2.length < U64 from hbb))
  have hcov : ∀ x,
      cover (((SparseVec.default T).insert d1 b).insert d2 (b + d1.length)).map x ↔
        b ≤ x ∧ x < b + d1.length + d2.length := by
    intro x
    rw [ha2.2.2 x, ha1.2.2 x]
    constructor
    · rintro (h | h | h)
      · omega
      · omega
      · exact absurd h (cover_default T x)
    · intro h
      by_cases hcase : b + d1.length ≤ x
      · exact Or.inl ⟨hcase, by omega⟩
      · exact Or.inr (Or.inl ⟨by omega, by omega⟩)
  refine ⟨?_, ?_, ?_⟩
  · intro e1 he1 e2 he2 hne
    rcases pairwise_mem_rel hspec.1.1 he1 he2 with heq | hlt | hlt
    · exact absurd heq hne
    · have hlt' : e1.1.stop < e2.1.start := hlt
      omega
    · have hlt' : e2.1.stop < e1.1.start := hlt
      have hne1 : e1.1.start < e1.1.stop := (hspec.1.2.1 e1 he1).1
      have hne2 : e2.1.start < e2.1.stop := (hspec.1.2.1 e2 he2).1
      omega
  · apply canon_unique
    · exact ha2.1.1.map _ (fun _ _ h => h)
    · intro rg hrg
      rcases List.mem_map.mp hrg with ⟨e, he, rfl⟩
      exact (ha2.1.2.1 e he).1
    · simp
    · intro rg hrg
      rw [List.mem_singleton] at hrg
      subst hrg
      show b < b + d1.length + d2.length
      omega
    · intro x
      rw [cover_iff_coverR_ranges, hcov x]
      constructor
      · intro h
        exact ⟨_, List.mem_singleton_self _,
          show b ≤ x ∧ x < b + d1.length + d2.length from h⟩
      · rintro ⟨rg, hrg, hx⟩
        rw [List.mem_singleton] at hrg
        subst hrg
        exact hx
  · rcases get_spec_success (r := (⟨b, b + d1.length + d2.length⟩ : Rng)) ha2.1
        (show b < b + d1.length + d2.length by omega) hbb
        (fun x hx1 hx2 => (hcov x).mpr ⟨hx1, hx2⟩) with ⟨l, hg, hl, _⟩
    refine ⟨l, hg, ?_⟩
    have hl2 : l.length = b + d1.length + d2.length - b := hl
    omega

theorem C4_witness :
    (((SparseVec.default Nat).insert [1] 0).insert [2] (0 + [1].length)).ranges =
      [(⟨0, 0 + [1].length + [2].length⟩ : Rng)] :=
  (C4_coalescing (SparseVec.default Nat) [5] 0 [1] [2] 0 (WF_default Nat)
    (Or.inr (by decide)) (by decide) (by decide) (by decide)).2.1

/-- C5: Gap rejection — `get` returns `None` when no stored range covers the
query's start, when the query extends past the end of the block covering its
start, and hence whenever the query range contains any uncovered address. -/
theorem C5_gap_rejection {T : Type} {s : SparseVec T} {r : Rng}
    (hWF : s.WF) (hb : r.stop < U64) :
    (RMap.get_key_value s.map r.start = none → s.get r = none) ∧
    (∀ e, RMap.get_key_value s.map r.start = some e → e.1.stop < r.stop →
      s.get r = none) ∧
    (∀ x, r.start ≤ x → x < r.stop → ¬ cover s.map x → s.get r = none) :=
  ⟨fun h => get_none_of_not_covered_start h,
    fun e he hp => get_none_of_past_end hWF he hb hp,
    fun x hx1 hx2 hg => get_none_of_gap hWF hb hx1 hx2 hg⟩

theorem C5_witness :
    (((SparseVec.default Nat).insert [1] 0).insert [2] 2).get (⟨0, 3⟩ : Rng) = none := by
  have hw1 := @insert_spec Nat (SparseVec.default Nat) [1] 0 (WF_default Nat)
    (Or.inr (by decide))
  have hw2 := @insert_spec Nat ((SparseVec.default Nat).insert [1] 0) [2] 2 hw1.1
    (Or.inr (by decide))
  have hncov : ¬ cover (((SparseVec.default Nat).insert [1] 0).insert [2] 2).map 1 := by
    intro hc
    rcases (hw2.2.2 1).mp hc with h | h
    · exact absurd h.1 (by decide)
    · rcases (hw1.2.2 1).mp h with h' | h'
      · have hcontra : (1 : Nat) < 0 + 1 := h'.2
        exact absurd hcontra (by decide)
      · exact cover_default Nat 1 h'
  exact (C5_gap_rejection hw2.1 (by decide)).2.2 1 (by decide) (by decide) hncov

/-- C6: Idempotent re-insert — inserting `(d, a)` twice in a row yields the
same `ranges()` sequence and the same `get` result on every query range as
inserting it once. -/
theorem C6_idempotent {T : Type} {s : SparseVec T} {d : List T} {a : Nat}
    (hWF : s.WF) (hb : d = [] ∨ a + d.length < U64) :
    ((s.insert d a).insert d a).ranges = (s.insert d a).ranges ∧
    ∀ r, ((s.insert d a).insert d a).get r = (s.insert d a).get r := by
  have h1 := insert_spec hWF hb
  have h2 := insert_spec h1.1 hb
  have hcov : ∀ x, cover ((s.insert d a).insert d a).map x ↔
      cover (s.insert d a).map x := by
    intro x
    rw [h2.2.2 x, h1.2.2 x]
    tauto
  have hv : ∀ x,
      valueAt ((s.insert d a).insert d a).map ((s.insert d a).insert d a).data x =
        valueAt (s.insert d a).map (s.insert d a).data x := by
    intro x
    rw [h2.2.1 x, h1.2.1 x]
    by_cases hc : a ≤ x ∧ x < a + d.length
    · rw [if_pos hc, if_pos hc]
    · rw [if_neg hc, if_neg hc]
  have hrg := ranges_eq_of_same_cover h2.1 h1.1 hcov
  exact ⟨hrg, get_eq_of_same h2.1 h1.1 hrg hv⟩

theorem C6_witness :
    (((SparseVec.default Nat).insert [7] 0).insert [7] 0).ranges =
      ((SparseVec.default Nat).insert [7] 0).ranges :=
  (C6_idempotent (WF_default Nat) (Or.inr (by decide))).1

/-- C7: Empty insert is a no-op — inserting an empty sequence at any address
leaves the entire container state (map, store and key counter) unchanged, so
in particular no storage key is allocated. -/
theorem C7_empty_insert {T : Type} (s : SparseVec T) (a : Nat) :
    s.insert [] a = s := by
  simp [SparseVec.insert]

theorem C7_witness : (SparseVec.default Nat).insert [] 5 = SparseVec.default Nat :=
  C7_empty_insert (SparseVec.default Nat) 5

/-- C8: Malformed queries never fail loudly — on a degenerate query range
(`stop ≤ start`), `get` returns `None` or `Some []` and `get_mut` returns
`None` or a view of zero elements (release-profile semantics: the wrapping
`u64` subtraction of `sub_range` yields an out-of-bounds slice request, which
the slice accessors answer with `None`, never a panic). -/
theorem C8_malformed {T : Type} {s : SparseVec T} {r : Rng}
    (hWF : s.WF) (hdeg : r.stop ≤ r.start) :
    (s.get r = none ∨ s.get r = some []) ∧
    (s.get_mut r = none ∨ ∃ k sr rg0 buf, s.get_mut r = some (k, sr) ∧
      s.data k = some (rg0, buf) ∧ slice_index buf sr = []) := by
  refine ⟨get_degenerate hWF hdeg, ?_⟩
  rcases hgm : s.get_mut r with _ | kv
  · exact Or.inl rfl
  · rcases (get_mut_spec s r).2 kv.1 kv.2 (by rw [hgm]) with ⟨rg0, buf, hdb, hget⟩
    rcases get_degenerate hWF hdeg with hn | he
    · rw [hn] at hget
      exact Option.noConfusion hget
    · rw [he] at hget
      exact Or.inr ⟨kv.1, kv.2, rg0, buf, rfl, hdb,
        (Option.some_inj.mp hget).symm⟩

theorem C8_witness :
    ((SparseVec.default Nat).insert [1] 0).get (⟨0, 0⟩ : Rng) = none ∨
      ((SparseVec.default Nat).insert [1] 0).get (⟨0, 0⟩ : Rng) = some [] :=
  (C8_malformed (@insert_spec Nat (SparseVec.default Nat) [1] 0 (WF_default Nat)
    (Or.inr (by decide))).1 (by decide)).1

/-- C9: Empty-range point query — on any state reachable by inserts,
`get(a..a)` returns `Some []` when some stored range covers `a` and `None`
when none does. -/
theorem C9_point_query {T : Type} {s : SparseVec T} {a : Nat} (h : s.Reachable) :
    (cover s.map a → s.get (⟨a, a⟩ : Rng) = some []) ∧
    (¬ cover s.map a → s.get (⟨a, a⟩ : Rng) = none) :=
  get_point_query (reachable_WF h)

theorem C9_witness :
    ((SparseVec.default Nat).insert [4] 0).get (⟨0, 0⟩ : Rng) = some [] :=
  (C9_point_query (SparseVec.Reachable.step (SparseVec.default Nat) [4] 0
      SparseVec.Reachable.base (Or.inr (by decide)))).1
    ((@insert_spec Nat (SparseVec.default Nat) [4] 0 (WF_default Nat)
      (Or.inr (by decide))).2.2 0 |>.mpr (Or.inl ⟨by decide, by decide⟩))

/-- C10: `get`/`get_mut` agreement — for every state and query range,
`get_mut` returns `Some` exactly when `get` does, and a successful mutable
view addresses, inside the block recorded under its key, exactly the elements
that `get` returns. -/
theorem C10_get_mut_agreement {T : Type} (s : SparseVec T) (r : Rng) :
    ((s.get_mut r).isSome = (s.get r).isSome) ∧
    (∀ k sr, s.get_mut r = some (k, sr) → ∃ rg0 buf, s.data k = some (rg0, buf) ∧
      s.get r = some (slice_index buf sr)) :=
  get_mut_spec s r

theorem C10_witness :
    ((SparseVec.default Nat).get_mut (⟨0, 1⟩ : Rng)).isSome =
      ((SparseVec.default Nat).get (⟨0, 1⟩ : Rng)).isSome :=
  (C10_get_mut_agreement (SparseVec.default Nat) (⟨0, 1⟩ : Rng)).1

end SparseSpec
